import Mathlib

/-!
Shallow embedding of the event-ingestion core of the WorkOS AuthKit Convex
component (`src/component/lib.ts`).

Modeling conventions:
* Convex tables are lists of row structures; `ctx.db.insert` appends a row.
* The system field `_creationTime` is modeled by a counter `nextTime` on the
  state, assigned at insertion and incremented; real Convex creation times
  are positive, so the counter starts at 1 (the backfill range query uses a
  strict `> 0` bound when no checkpoint exists).
* The system field `_id` of a user row is modeled by a counter `nextSysId`.
* `.withIndex(...).unique()` point lookups are modeled with `List.find?`;
  on states whose key column is duplicate-free (Convex enforces this via the
  unique upstream ids and `unique()` would throw otherwise) this is exact.
* The caller-supplied `onEventHandle` is a function handle into the host
  app. Convex components have isolated tables, so the handler cannot write
  the component's own tables; its invocation is recorded in a ghost
  `handlerLog`.
* `console.log` / `console.warn` / `console.error` output is not modeled;
  the `logLevel` argument only gates console output and is carried through
  for interface fidelity.
* The remote WorkOS events feed is an external collaborator: one
  `listEvents` response is a `Page` (the `data` array plus the
  `listMetadata.after` continuation cursor), and a run consumes a list of
  responses. The requests the code issues are returned alongside the final
  state so that properties of the requests themselves can be stated.
* Ghost fields (`handlerLog`, `appliedOps`, the per-row `applied` list)
  record which mutations actually executed; they never influence behavior.
-/

/-- A WorkOS user object as mirrored by the component (the fields of
`event.data` after `omit(event.data, ["object"])`; representative fields).
In the source `updatedAt` is an uninterpreted ISO-8601 timestamp string compared
with JS relational comparison (lexicographic, which on these strings is
chronological); it is modeled as a `Nat` so the order is the same total
order. -/
structure UserDoc where
  id : String
  updatedAt : Nat
  email : String
  firstName : String
  lastName : String
deriving DecidableEq, Repr

/-- A WorkOS event as received from the feed / webhook:
`{id, createdAt, event, data}`. -/
structure WEvent where
  id : String
  createdAt : String
  event : String
  data : UserDoc
deriving DecidableEq, Repr

/-- A row of the component's `events` table. -/
structure EventRow where
  eventId : String
  event : String
  updatedAt : Nat
  creationTime : Nat
deriving DecidableEq, Repr

/-- A row of the component's `users` table. `applied` is a ghost trace of the
`updatedAt` stamps of the create/update events applied to this row since its
insertion; it does not influence behavior. -/
structure UserRow where
  sysId : Nat
  doc : UserDoc
  applied : List Nat
deriving DecidableEq, Repr

/-- One invocation of the caller-supplied `onEventHandle` mutation, tagged
with the id of the event being processed. -/
structure HandlerCall where
  eventId : String
  event : String
  data : UserDoc
deriving DecidableEq, Repr

/-- The arguments with which `enqueueWebhookEvent` enqueues
`internal.lib.updateEvents` on the event workpool. -/
structure RunArgs where
  apiKey : String
  onEventHandle : Option String
  eventTypes : Option (List String)
  logLevel : Option String
deriving DecidableEq, Repr

/-- The component's durable state: the three tables (`events`, `users`,
`syncState`), the event workpool's pending work, the `_id` / `_creationTime`
allocators, and two ghost traces. The singleton `syncState` table only ever
holds the `lastCheckpointedEventId` key, so it is modeled as the optional
stored value. -/
structure St where
  events : List EventRow
  users : List UserRow
  syncState : Option String
  pool : List RunArgs
  nextSysId : Nat
  nextTime : Nat
  handlerLog : List HandlerCall
  appliedOps : List (String × Nat)
deriving DecidableEq, Repr

/-- The initial state: all tables empty; creation times start at 1 (Convex
creation times are positive). -/
def emptySt : St :=
  { events := [], users := [], syncState := none, pool := [],
    nextSysId := 0, nextTime := 1, handlerLog := [], appliedOps := [] }

/-- The event ids currently recorded in the Event Store. -/
def storeIds (s : St) : List String := s.events.map (·.eventId)

/-- Step 2 of `processEvent`: insert the Event record. -/
def insertEventRow (event : WEvent) (s : St) : St :=
  { s with
    events := s.events ++ [⟨event.id, event.event, event.data.updatedAt, s.nextTime⟩],
    nextTime := s.nextTime + 1 }

/-- Step 3 of `processEvent`: the `switch (event.event)` dispatch mutating the
`users` mirror (ghost `appliedOps` / per-row `applied` record the mutations
that actually execute). -/
def applyUserDispatch (event : WEvent) (s : St) : St :=
  if event.event = "user.created" then
    match s.users.find? (fun r => r.doc.id = event.data.id) with
    | some _ => s
    | none =>
      { s with
        users := s.users ++ [⟨s.nextSysId, event.data, [event.data.updatedAt]⟩],
        nextSysId := s.nextSysId + 1,
        appliedOps := s.appliedOps ++ [(event.data.id, event.data.updatedAt)] }
  else if event.event = "user.updated" then
    match s.users.find? (fun r => r.doc.id = event.data.id) with
    | none => s
    | some u =>
      if event.data.updatedAt ≤ u.doc.updatedAt then s
      else
        { s with
          users := s.users.map (fun r =>
            if r.sysId = u.sysId then ⟨r.sysId, event.data, r.applied ++ [event.data.updatedAt]⟩
            else r),
          appliedOps := s.appliedOps ++ [(event.data.id, event.data.updatedAt)] }
  else if event.event = "user.deleted" then
    match s.users.find? (fun r => r.doc.id = event.data.id) with
    | none => s
    | some u => { s with users := s.users.filter (fun r => r.sysId ≠ u.sysId) }
  else s

/-- Step 4 of `processEvent`: if an `onEventHandle` is configured, invoke it
with `{event, data}` (recorded in the ghost log). -/
def applyHandler (event : WEvent) (onEventHandle : Option String) (s : St) : St :=
  match onEventHandle with
  | none => s
  | some _ => { s with handlerLog := s.handlerLog ++ [⟨event.id, event.event, event.data⟩] }

/-- `internal.lib.processEvent`: dedup check on `event.id` first; then insert
the Event record, dispatch on the event type, and invoke the caller handler. -/
def processEvent (event : WEvent) (logLevel : Option String)
    (onEventHandle : Option String) (s : St) : St :=
  match s.events.find? (fun r => r.eventId = event.id) with
  | some _ => s
  | none => applyHandler event onEventHandle (applyUserDispatch event (insertEventRow event s))

/-- `internal.lib.getCursor`: the `eventId` of the most recently inserted
event (the `events` table ordered descending by `_creationTime`); rows are
appended in creation-time order, so this is the last row. -/
def getCursor (s : St) : Option String :=
  s.events.getLast?.map (·.eventId)

/-- `getAuthUser`: point lookup of a mirrored user by upstream id, without
system fields. -/
def getAuthUser (id : String) (s : St) : Option UserDoc :=
  (s.users.find? (fun r => r.doc.id = id)).map (·.doc)

/-- `internal.lib.getLastCheckpointedEvent`: resolve the checkpointed event id
through the `events` table to recover its `_creationTime`. -/
def getLastCheckpointedEvent (s : St) : Option (String × Nat) :=
  match s.syncState with
  | none => none
  | some v => (s.events.find? (fun r => r.eventId = v)).map (fun r => (r.eventId, r.creationTime))

/-- `internal.lib.getMissingEventIds`: which of the given ids are absent among
events with `_creationTime > after` (`after ?? 0`). -/
def getMissingEventIds (eventIds : List String) (after : Option Nat) (s : St) : List String :=
  let existing := (s.events.filter (fun r => r.creationTime > after.getD 0)).map (·.eventId)
  eventIds.filter (fun i => decide (i ∉ existing))

/-- `internal.lib.updateLastCheckpointedEventId`: patch-or-insert the
singleton `syncState` row. -/
def updateLastCheckpointedEventId (eventId : String) (s : St) : St :=
  { s with syncState := some eventId }

/-- `mutation enqueueWebhookEvent`: `cancelAll` the event workpool, then
enqueue one `updateEvents` run with the forwarded arguments. Note that
`eventId`, `event` and `updatedAt` from the webhook payload are not
forwarded. -/
structure WebhookArgs where
  apiKey : String
  eventId : String
  event : String
  updatedAt : Option String
  onEventHandle : Option String
  eventTypes : Option (List String)
  logLevel : Option String
deriving DecidableEq, Repr

def enqueueWebhookEvent (args : WebhookArgs) (s : St) : St :=
  { s with pool := [⟨args.apiKey, args.onEventHandle, args.eventTypes, args.logLevel⟩] }

/-- The `maxParallelism` with which the `eventWorkpool` is constructed. -/
def eventWorkpoolMaxParallelism : Nat := 1

/-- One response of the remote feed: `{data, listMetadata: {after}}`. -/
structure Page where
  data : List WEvent
  after : Option String
deriving DecidableEq, Repr

/-- One `workos.events.listEvents` request as issued by this component.
`rangeStart` is part of the WorkOS list-events API surface (an optional
lower time bound); this component never sets it, but it is carried so that
properties about time-range restriction can be stated. -/
structure ListRequest where
  events : List String
  after : Option String
  rangeStart : Option Nat
deriving DecidableEq, Repr

/-- The fixed allow-list of event types always requested. -/
def baseEventTypes : List String :=
  ["user.created", "user.updated", "user.deleted"]

/-- The `do … while (nextCursor)` page loop of `updateEvents`: issue a
request, process every event of the response through `processEvent`, follow
the continuation cursor. The list of feed responses stands in for the remote
server; if responses run out the run is cut short (the real call would block
on the network). -/
def pullLoop (types : List String) (logLevel onEventHandle : Option String) :
    Option String → List Page → St → St × List ListRequest
  | cur, [], s => (s, [⟨types, cur, none⟩])
  | cur, p :: rest, s =>
    let req : ListRequest := ⟨types, cur, none⟩
    let s1 := p.data.foldl (fun t e => processEvent e logLevel onEventHandle t) s
    match p.after with
    | none => (s1, [req])
    | some c =>
      let r := pullLoop types logLevel onEventHandle (some c) rest s1
      (r.1, req :: r.2)

/-- `internal.lib.updateEvents` (the Live Sync Puller): load the cursor from
the Event Store, then drain the feed from there. Returns the final state and
the requests issued. `apiKey` only constructs the WorkOS client. -/
def updateEvents (apiKey : String) (onEventHandle : Option String)
    (eventTypes : Option (List String)) (logLevel : Option String)
    (pages : List Page) (s : St) : St × List ListRequest :=
  let _ := apiKey
  let types := baseEventTypes ++ eventTypes.getD []
  pullLoop types logLevel onEventHandle (getCursor s) pages s

/-- The events a puller run iterates over, given the feed responses: all of
each page, stopping after a page whose continuation cursor is null. -/
def pullWalk : List Page → List WEvent
  | [] => []
  | p :: rest =>
    p.data ++ (match p.after with
               | none => []
               | some _ => pullWalk rest)

/-- The `{processed, skipped, lastEventId}` result of `backfillEvents`. -/
structure BackfillResult where
  processed : Nat
  skipped : Nat
  lastEventId : Option String
deriving DecidableEq, Repr

/-- The per-page event loop of `backfillEvents`: events in the batch-computed
`missing` list go through `processEvent`, the rest are skipped; either way
`lastEventId` advances. -/
def backfillPage (logLevel onEventHandle : Option String) (missing : List String)
    (pg : List WEvent) (acc : St × BackfillResult) : St × BackfillResult :=
  pg.foldl (fun a e =>
    if e.id ∈ missing then
      (processEvent e logLevel onEventHandle a.1,
       { a.2 with processed := a.2.processed + 1, lastEventId := some e.id })
    else
      (a.1, { a.2 with skipped := a.2.skipped + 1, lastEventId := some e.id })) acc

/-- The `while (true)` page loop of `backfillEvents`: stop on an empty page,
batch-query the missing ids against events newer than the checkpoint, process
the page, follow the continuation cursor. -/
def backfillLoop (logLevel onEventHandle : Option String) (lastVerifiedCt : Nat) :
    List Page → St → BackfillResult → St × BackfillResult
  | [], s, r => (s, r)
  | pg :: rest, s, r =>
    if pg.data.isEmpty then (s, r)
    else
      let missing := getMissingEventIds (pg.data.map (·.id)) (some lastVerifiedCt) s
      let a := backfillPage logLevel onEventHandle missing pg.data (s, r)
      match pg.after with
      | none => a
      | some _ => backfillLoop logLevel onEventHandle lastVerifiedCt rest a.1 a.2

/-- `internal.lib.backfillEvents` (the Backfill Reconciler): read the
checkpoint, walk the feed from it, and afterwards advance the checkpoint to
the last observed event id if any event was observed. -/
def backfillEvents (apiKey : String) (onEventHandle : Option String)
    (eventTypes : Option (List String)) (logLevel : Option String)
    (pages : List Page) (s : St) : St × BackfillResult :=
  let _ := apiKey
  let _ := eventTypes
  let cp := getLastCheckpointedEvent s
  let lastVerifiedCt := (cp.map Prod.snd).getD 0
  let a := backfillLoop logLevel onEventHandle lastVerifiedCt pages s ⟨0, 0, none⟩
  match a.2.lastEventId with
  | some id => (updateLastCheckpointedEventId id a.1, a.2)
  | none => a

/-- The events a backfill run iterates over, given the feed responses: stops
at the first empty page, otherwise all of each page until a page with a null
continuation cursor. -/
def bfWalk : List Page → List WEvent
  | [] => []
  | pg :: rest =>
    if pg.data.isEmpty then []
    else pg.data ++ (match pg.after with
                     | none => []
                     | some _ => bfWalk rest)

/-! ### Basic frame and characterization lemmas -/

theorem applyUserDispatch_events (e : WEvent) (s : St) :
    (applyUserDispatch e s).events = s.events := by
  unfold applyUserDispatch
  repeat' split
  all_goals rfl

theorem applyUserDispatch_syncState (e : WEvent) (s : St) :
    (applyUserDispatch e s).syncState = s.syncState := by
  unfold applyUserDispatch
  repeat' split
  all_goals rfl

theorem applyUserDispatch_nextTime (e : WEvent) (s : St) :
    (applyUserDispatch e s).nextTime = s.nextTime := by
  unfold applyUserDispatch
  repeat' split
  all_goals rfl

theorem applyUserDispatch_pool (e : WEvent) (s : St) :
    (applyUserDispatch e s).pool = s.pool := by
  unfold applyUserDispatch
  repeat' split
  all_goals rfl

theorem applyUserDispatch_handlerLog (e : WEvent) (s : St) :
    (applyUserDispatch e s).handlerLog = s.handlerLog := by
  unfold applyUserDispatch
  repeat' split
  all_goals rfl

theorem applyHandler_events (e : WEvent) (h : Option String) (s : St) :
    (applyHandler e h s).events = s.events := by
  unfold applyHandler
  split
  all_goals rfl

theorem applyHandler_users (e : WEvent) (h : Option String) (s : St) :
    (applyHandler e h s).users = s.users := by
  unfold applyHandler
  split
  all_goals rfl

theorem applyHandler_syncState (e : WEvent) (h : Option String) (s : St) :
    (applyHandler e h s).syncState = s.syncState := by
  unfold applyHandler
  split
  all_goals rfl

theorem applyHandler_nextTime (e : WEvent) (h : Option String) (s : St) :
    (applyHandler e h s).nextTime = s.nextTime := by
  unfold applyHandler
  split
  all_goals rfl

theorem applyHandler_handlerLog (e : WEvent) (h : Option String) (s : St) :
    (applyHandler e h s).handlerLog
      = s.handlerLog ++ (match h with | none => [] | some _ => [⟨e.id, e.event, e.data⟩]) := by
  unfold applyHandler
  split
  · simp
  · rfl

/-- If the event id is already recorded, `processEvent` is a full no-op. -/
theorem processEvent_of_find?_some {s : St} {e : WEvent} {r : EventRow}
    (h : s.events.find? (fun x => x.eventId = e.id) = some r)
    (lg hd : Option String) : processEvent e lg hd s = s := by
  unfold processEvent
  rw [h]

theorem find?_eventId_eq_none {s : St} {i : String} :
    s.events.find? (fun r => r.eventId = i) = none ↔ i ∉ storeIds s := by
  simp [List.find?_eq_none, storeIds]

/-- Generic point-lookup lemma: over a list whose key column is
duplicate-free, `find?` by key returns exactly the member row. -/
theorem find?_key_eq_some {α : Type} (key : α → String) :
    ∀ (l : List α) (r : α), (l.map key).Nodup → r ∈ l →
      l.find? (fun x => key x = key r) = some r := by
  intro l
  induction l with
  | nil => intro r _ hm; cases hm
  | cons a t ih =>
    intro r hn hm
    rw [List.map_cons, List.nodup_cons] at hn
    rcases List.mem_cons.mp hm with rfl | hmt
    · exact List.find?_cons_of_pos _ (by simp)
    · have hne : key a ≠ key r := by
        intro hk
        exact hn.1 (hk ▸ List.mem_map_of_mem key hmt)
      rw [List.find?_cons_of_neg _ (by simp [hne]), ih r hn.2 hmt]

theorem processEvent_of_fresh {s : St} {e : WEvent}
    (h : e.id ∉ storeIds s) (lg hd : Option String) :
    processEvent e lg hd s
      = applyHandler e hd (applyUserDispatch e (insertEventRow e s)) := by
  unfold processEvent
  rw [find?_eventId_eq_none.mpr h]

/-- On a fresh event, the Event Store gets exactly one appended record. -/
theorem processEvent_events_of_fresh {s : St} {e : WEvent}
    (h : e.id ∉ storeIds s) (lg hd : Option String) :
    (processEvent e lg hd s).events
      = s.events ++ [⟨e.id, e.event, e.data.updatedAt, s.nextTime⟩] := by
  rw [processEvent_of_fresh h lg hd, applyHandler_events, applyUserDispatch_events]
  rfl

theorem processEvent_nextTime_of_fresh {s : St} {e : WEvent}
    (h : e.id ∉ storeIds s) (lg hd : Option String) :
    (processEvent e lg hd s).nextTime = s.nextTime + 1 := by
  rw [processEvent_of_fresh h lg hd, applyHandler_nextTime, applyUserDispatch_nextTime]
  rfl

theorem processEvent_syncState (e : WEvent) (lg hd : Option String) (s : St) :
    (processEvent e lg hd s).syncState = s.syncState := by
  unfold processEvent
  split
  · rfl
  · rw [applyHandler_syncState, applyUserDispatch_syncState]
    rfl

/-- If the event id is already recorded, the lookup succeeds. -/
theorem find?_eventId_isSome {s : St} {i : String} (h : i ∈ storeIds s) :
    ∃ r, s.events.find? (fun x => x.eventId = i) = some r := by
  rcases List.mem_map.mp h with ⟨r, hrm, hre⟩
  rw [← Option.isSome_iff_exists, List.find?_isSome]
  exact ⟨r, hrm, by simp [hre]⟩

/-- If the event id is already recorded, `processEvent` is a full no-op. -/
theorem processEvent_of_mem {s : St} {e : WEvent} (h : e.id ∈ storeIds s)
    (lg hd : Option String) : processEvent e lg hd s = s := by
  rcases find?_eventId_isSome h with ⟨r, hr⟩
  exact processEvent_of_find?_some hr lg hd

/-- After `processEvent`, the event id is recorded. -/
theorem processEvent_mem_storeIds (e : WEvent) (lg hd : Option String) (s : St) :
    e.id ∈ storeIds (processEvent e lg hd s) := by
  by_cases h : e.id ∈ storeIds s
  · rw [processEvent_of_mem h lg hd]; exact h
  · rw [storeIds, processEvent_events_of_fresh h lg hd]
    simp

/-- `processEvent` only ever appends to the Event Store. -/
theorem storeIds_subset_processEvent (e : WEvent) (lg hd : Option String) (s : St) :
    storeIds s ⊆ storeIds (processEvent e lg hd s) := by
  by_cases h : e.id ∈ storeIds s
  · rw [processEvent_of_mem h lg hd]
    exact fun x hx => hx
  · intro x hx
    rw [storeIds, processEvent_events_of_fresh h lg hd]
    simp only [storeIds] at hx
    simp [hx]

theorem applyUserDispatch_with_handlerLog (e : WEvent) (s : St) :
    (applyUserDispatch e s).handlerLog = s.handlerLog :=
  applyUserDispatch_handlerLog e s

theorem processEvent_handlerLog_of_fresh {s : St} {e : WEvent}
    (h : e.id ∉ storeIds s) (lg hd : Option String) :
    (processEvent e lg hd s).handlerLog
      = s.handlerLog
        ++ (match hd with | none => [] | some _ => [⟨e.id, e.event, e.data⟩]) := by
  rw [processEvent_of_fresh h lg hd, applyHandler_handlerLog, applyUserDispatch_handlerLog]
  rfl

theorem mem_storeIds_processEvent_ne {e : WEvent} {i : String}
    (hne : e.id ≠ i) (lg hd : Option String) (s : St) :
    i ∈ storeIds (processEvent e lg hd s) ↔ i ∈ storeIds s := by
  by_cases h : e.id ∈ storeIds s
  · rw [processEvent_of_mem h lg hd]
  · rw [storeIds, processEvent_events_of_fresh h lg hd]
    simp only [storeIds, List.map_append, List.mem_append]
    simp [Ne.symm hne]

/-- Number of recorded handler invocations tagged with a given event id. -/
def countHandlerCalls (i : String) (s : St) : Nat :=
  (s.handlerLog.filter (fun c => c.eventId = i)).length

/-- Processing a list of events in order. -/
def processTrace (es : List WEvent) (lg hd : Option String) (s : St) : St :=
  es.foldl (fun t e => processEvent e lg hd t) s

theorem processTrace_cons (e : WEvent) (es : List WEvent)
    (lg hd : Option String) (s : St) :
    processTrace (e :: es) lg hd s = processTrace es lg hd (processEvent e lg hd s) := rfl

theorem countHandlerCalls_processEvent_ne {e : WEvent} {i : String}
    (hne : e.id ≠ i) (lg hd : Option String) (s : St) :
    countHandlerCalls i (processEvent e lg hd s) = countHandlerCalls i s := by
  by_cases h : e.id ∈ storeIds s
  · rw [processEvent_of_mem h lg hd]
  · rw [countHandlerCalls, processEvent_handlerLog_of_fresh h lg hd, List.filter_append]
    cases hd <;> simp [countHandlerCalls, hne]

theorem countHandlerCalls_processEvent_le (e : WEvent) (lg hd : Option String)
    (s : St) (i : String) :
    countHandlerCalls i (processEvent e lg hd s) ≤ countHandlerCalls i s + 1 := by
  by_cases h : e.id ∈ storeIds s
  · rw [processEvent_of_mem h lg hd]
    exact Nat.le_add_right _ _
  · rw [countHandlerCalls, processEvent_handlerLog_of_fresh h lg hd, List.filter_append,
      List.length_append]
    cases hd
    · simp [countHandlerCalls]
    · by_cases hi : e.id = i <;> simp [countHandlerCalls, hi]

theorem countHandlerCalls_processTrace_of_mem {i : String} :
    ∀ (es : List WEvent) (lg hd : Option String) (s : St), i ∈ storeIds s →
      countHandlerCalls i (processTrace es lg hd s) = countHandlerCalls i s := by
  intro es
  induction es with
  | nil => intro lg hd s _; rfl
  | cons e t ih =>
    intro lg hd s h
    rw [processTrace_cons]
    by_cases he : e.id = i
    · rw [processEvent_of_mem (he ▸ h) lg hd, ih lg hd s h]
    · rw [ih lg hd _ ((mem_storeIds_processEvent_ne he lg hd s).mpr h),
        countHandlerCalls_processEvent_ne he lg hd s]

/-! ### Claim C1 -/

/-- Claim C1: applying the same event (same `event.id`) twice via
`processEvent` is idempotent — for every event, every option configuration
and every prior store state (whose Event Store ids are duplicate-free, as
enforced by the `eventId` index and `.unique()`), the second application
leaves the whole state (Event Store, user mirror, handler log) exactly as
after a single application, and the Event Store holds exactly one record for
that id; holds for all event types. -/
theorem C1_processEvent_idempotent (e : WEvent) (lg hd : Option String) (s : St)
    (hWF : (storeIds s).Nodup) :
    processEvent e lg hd (processEvent e lg hd s) = processEvent e lg hd s ∧
    (storeIds (processEvent e lg hd s)).count e.id = 1 := by
  constructor
  · exact processEvent_of_mem (processEvent_mem_storeIds e lg hd s) lg hd
  · by_cases h : e.id ∈ storeIds s
    · rw [processEvent_of_mem h lg hd]
      exact List.count_eq_one_of_mem hWF h
    · rw [storeIds, processEvent_events_of_fresh h lg hd]
      have : e.id ∉ List.map (fun r => r.eventId) s.events := h
      simp [List.count_append, List.count_eq_zero.mpr this]

/-- Witness for C1 at a concrete event and state. -/
theorem C1_witness :
    processEvent ⟨"e1", "c", "user.created", ⟨"u1", 3, "a@b.c", "F", "L"⟩⟩ none none
        (processEvent ⟨"e1", "c", "user.created", ⟨"u1", 3, "a@b.c", "F", "L"⟩⟩ none none emptySt)
      = processEvent ⟨"e1", "c", "user.created", ⟨"u1", 3, "a@b.c", "F", "L"⟩⟩ none none emptySt ∧
    (storeIds (processEvent ⟨"e1", "c", "user.created", ⟨"u1", 3, "a@b.c", "F", "L"⟩⟩
        none none emptySt)).count "e1" = 1 :=
  C1_processEvent_idempotent ⟨"e1", "c", "user.created", ⟨"u1", 3, "a@b.c", "F", "L"⟩⟩
    none none emptySt (by decide)

/-! ### Claim C10 -/

/-- Claim C10: for every event whose id already exists in the Event Store,
`processEvent` leaves the whole state (the `events`, `users` and `syncState`
tables included) unchanged and does not invoke the caller-supplied
`onEventHandle` handler; consequently, along any trace of `processEvent`
calls the handler is invoked at most once per event id (at most once more
than already recorded, and not at all if the id is already stored). -/
theorem C10_dup_frame_handler_once :
    (∀ (e : WEvent) (lg hd : Option String) (s : St),
        e.id ∈ storeIds s → processEvent e lg hd s = s) ∧
    (∀ (es : List WEvent) (lg hd : Option String) (s : St) (i : String),
        countHandlerCalls i (processTrace es lg hd s)
          ≤ countHandlerCalls i s + (if i ∈ storeIds s then 0 else 1)) := by
  constructor
  · intro e lg hd s h
    exact processEvent_of_mem h lg hd
  · intro es
    induction es with
    | nil =>
      intro lg hd s i
      exact Nat.le_add_right _ _
    | cons e t ih =>
      intro lg hd s i
      by_cases hi : i ∈ storeIds s
      · rw [countHandlerCalls_processTrace_of_mem (e :: t) lg hd s hi]
        exact Nat.le_add_right _ _
      · rw [processTrace_cons]
        by_cases he : e.id = i
        · subst he
          by_cases hm : e.id ∈ storeIds s
        
          · exact absurd hm hi
          · rw [countHandlerCalls_processTrace_of_mem t lg hd _
              (processEvent_mem_storeIds e lg hd s)]
            simpa [hi] using countHandlerCalls_processEvent_le e lg hd s e.id
        · have h1 := ih lg hd (processEvent e lg hd s) i
          rw [countHandlerCalls_processEvent_ne he lg hd s] at h1
          have h2 : i ∉ storeIds (processEvent e lg hd s) := by
            rw [mem_storeIds_processEvent_ne he lg hd s]
            exact hi
          simpa [hi, h2] using h1

/-- Witness for C10 at concrete inputs: a duplicate of an already-stored
event id is a no-op, and a three-event trace with a configured handler and a
duplicated id invokes the handler at most once for that id. -/
theorem C10_witness :
    processEvent ⟨"e1", "c", "user.created", ⟨"u1", 3, "a@b.c", "F", "L"⟩⟩ none (some "h")
        { emptySt with events := [⟨"e1", "user.created", 3, 1⟩], nextTime := 2 }
      = { emptySt with events := [⟨"e1", "user.created", 3, 1⟩], nextTime := 2 } ∧
    countHandlerCalls "e1"
        (processTrace
          [⟨"e1", "c", "user.created", ⟨"u1", 3, "a@b.c", "F", "L"⟩⟩,
           ⟨"e2", "c", "user.updated", ⟨"u1", 5, "a@b.c", "F", "L"⟩⟩,
           ⟨"e1", "c", "user.created", ⟨"u1", 3, "a@b.c", "F", "L"⟩⟩] none (some "h") emptySt)
      ≤ countHandlerCalls "e1" emptySt + (if "e1" ∈ storeIds emptySt then 0 else 1) :=
  ⟨C10_dup_frame_handler_once.1 ⟨"e1", "c", "user.created", ⟨"u1", 3, "a@b.c", "F", "L"⟩⟩
      none (some "h") { emptySt with events := [⟨"e1", "user.created", 3, 1⟩], nextTime := 2 }
      (by decide),
   C10_dup_frame_handler_once.2
      [⟨"e1", "c", "user.created", ⟨"u1", 3, "a@b.c", "F", "L"⟩⟩,
       ⟨"e2", "c", "user.updated", ⟨"u1", 5, "a@b.c", "F", "L"⟩⟩,
       ⟨"e1", "c", "user.created", ⟨"u1", 3, "a@b.c", "F", "L"⟩⟩] none (some "h") emptySt "e1"⟩

/-! ### Claim C9 -/

/-- Claim C9: the behavior of `enqueueWebhookEvent` is independent of its
`eventId`, `event` and `updatedAt` arguments — two calls differing only in
those produce identical states — and the mutation itself touches no table:
the webhook's own payload is never applied directly (the enqueued run
re-fetches events from the remote feed). -/
theorem C9_enqueueWebhookEvent_payload_independent (a1 a2 : WebhookArgs) (s : St)
    (hk : a1.apiKey = a2.apiKey) (hh : a1.onEventHandle = a2.onEventHandle)
    (ht : a1.eventTypes = a2.eventTypes) (hl : a1.logLevel = a2.logLevel) :
    enqueueWebhookEvent a1 s = enqueueWebhookEvent a2 s ∧
    (enqueueWebhookEvent a1 s).events = s.events ∧
    (enqueueWebhookEvent a1 s).users = s.users ∧
    (enqueueWebhookEvent a1 s).syncState = s.syncState ∧
    (enqueueWebhookEvent a1 s).handlerLog = s.handlerLog := by
  refine ⟨?_, rfl, rfl, rfl, rfl⟩
  simp [enqueueWebhookEvent, hk, hh, ht, hl]

/-- Witness for C9: two webhook deliveries with different event payloads but
the same configuration produce the same state. -/
theorem C9_witness :
    enqueueWebhookEvent ⟨"k", "e1", "user.created", some "t1", some "h", none, none⟩ emptySt
      = enqueueWebhookEvent ⟨"k", "e2", "user.deleted", none, some "h", none, none⟩ emptySt ∧
    (enqueueWebhookEvent ⟨"k", "e1", "user.created", some "t1", some "h", none, none⟩
        emptySt).events = emptySt.events ∧
    (enqueueWebhookEvent ⟨"k", "e1", "user.created", some "t1", some "h", none, none⟩
        emptySt).users = emptySt.users ∧
    (enqueueWebhookEvent ⟨"k", "e1", "user.created", some "t1", some "h", none, none⟩
        emptySt).syncState = emptySt.syncState ∧
    (enqueueWebhookEvent ⟨"k", "e1", "user.created", some "t1", some "h", none, none⟩
        emptySt).handlerLog = emptySt.handlerLog :=
  C9_enqueueWebhookEvent_payload_independent
    ⟨"k", "e1", "user.created", some "t1", some "h", none, none⟩
    ⟨"k", "e2", "user.deleted", none, some "h", none, none⟩ emptySt rfl rfl rfl rfl

/-! ### Pull-loop record lemmas (for C8) -/

theorem storeIds_subset_foldl (lg hd : Option String) :
    ∀ (l : List WEvent) (s : St),
      storeIds s ⊆ storeIds (l.foldl (fun t e => processEvent e lg hd t) s) := by
  intro l
  induction l with
  | nil => intro s; exact fun x hx => hx
  | cons e t ih =>
    intro s x hx
    exact ih _ (storeIds_subset_processEvent e lg hd s hx)

theorem mem_storeIds_foldl (lg hd : Option String) :
    ∀ (l : List WEvent) (s : St) (e : WEvent), e ∈ l →
      e.id ∈ storeIds (l.foldl (fun t e => processEvent e lg hd t) s) := by
  intro l
  induction l with
  | nil => intro s e he; cases he
  | cons x t ih =>
    intro s e he
    rcases List.mem_cons.mp he with rfl | ht
    · exact storeIds_subset_foldl lg hd t _ (processEvent_mem_storeIds e lg hd s)
    · exact ih _ e ht

theorem storeIds_subset_pullLoop (types : List String) (lg hd : Option String) :
    ∀ (pages : List Page) (cur : Option String) (s : St),
      storeIds s ⊆ storeIds (pullLoop types lg hd cur pages s).1 := by
  intro pages
  induction pages with
  | nil => intro cur s; exact fun x hx => hx
  | cons p rest ih =>
    intro cur s x hx
    cases hafter : p.after with
    | none =>
      simp only [pullLoop, hafter]
      exact storeIds_subset_foldl lg hd p.data s hx
    | some c =>
      simp only [pullLoop, hafter]
      exact ih (some c) _ (storeIds_subset_foldl lg hd p.data s hx)

theorem pullWalk_recorded (types : List String) (lg hd : Option String) :
    ∀ (pages : List Page) (cur : Option String) (s : St) (e : WEvent),
      e ∈ pullWalk pages →
      e.id ∈ storeIds (pullLoop types lg hd cur pages s).1 := by
  intro pages
  induction pages with
  | nil => intro cur s e he; cases he
  | cons p rest ih =>
    intro cur s e he
    cases hafter : p.after with
    | none =>
      simp only [pullWalk, hafter] at he
      simp only [pullLoop, hafter]
      rcases List.mem_append.mp he with hd1 | h0
      · exact mem_storeIds_foldl lg hd p.data s e hd1
      · simp at h0
    | some c =>
      simp only [pullWalk, hafter] at he
      simp only [pullLoop, hafter]
      rcases List.mem_append.mp he with hd1 | hrest
      · exact storeIds_subset_pullLoop types lg hd rest (some c) _
          (mem_storeIds_foldl lg hd p.data s e hd1)
      · exact ih (some c) _ e hrest

/-! ### Claim C8 -/

/-- Claim C8: the Live Sync Puller never has more than one active run — the
event workpool is configured with `maxParallelism = 1`, and
`enqueueWebhookEvent` first cancels all pending/in-flight work and then
enqueues exactly one new `updateEvents` run (supersede, not queue), for every
prior pool content; and no event is lost: a completed `updateEvents` run
records every event the feed serves it in the Event Store (the new run reads
the persisted cursor at run time, so events recorded before the cancellation
stay recorded — `processEvent` only appends). -/
theorem C8_supersede_single_run_no_loss :
    (∀ (a : WebhookArgs) (s : St),
        (enqueueWebhookEvent a s).pool
          = [⟨a.apiKey, a.onEventHandle, a.eventTypes, a.logLevel⟩]) ∧
    eventWorkpoolMaxParallelism = 1 ∧
    (∀ (apiKey : String) (hd : Option String) (et : Option (List String))
        (lg : Option String) (pages : List Page) (s : St) (e : WEvent),
        e ∈ pullWalk pages →
        e.id ∈ storeIds (updateEvents apiKey hd et lg pages s).1) := by
  refine ⟨fun a s => rfl, rfl, ?_⟩
  intro apiKey hd et lg pages s e he
  exact pullWalk_recorded (baseEventTypes ++ et.getD []) lg hd pages (getCursor s) s e he

/-- Witness for C8 at concrete inputs: a webhook trigger on a state with two
stale queued runs leaves exactly the one new run, and a two-page feed run
records a served event. -/
theorem C8_witness :
    (enqueueWebhookEvent ⟨"k", "e9", "user.created", none, none, none, none⟩
        { emptySt with pool := [⟨"old", none, none, none⟩, ⟨"old2", none, none, none⟩] }).pool
      = [⟨"k", none, none, none⟩] ∧
    eventWorkpoolMaxParallelism = 1 ∧
    "e2" ∈ storeIds (updateEvents "k" none none none
        [⟨[⟨"e1", "c", "user.created", ⟨"u1", 3, "a@b.c", "F", "L"⟩⟩], some "e1"⟩,
         ⟨[⟨"e2", "c", "user.updated", ⟨"u1", 5, "a@b.c", "F", "L"⟩⟩], none⟩] emptySt).1 :=
  ⟨C8_supersede_single_run_no_loss.1 ⟨"k", "e9", "user.created", none, none, none, none⟩
      { emptySt with pool := [⟨"old", none, none, none⟩, ⟨"old2", none, none, none⟩] },
   C8_supersede_single_run_no_loss.2.1,
   C8_supersede_single_run_no_loss.2.2 "k" none none none
      [⟨[⟨"e1", "c", "user.created", ⟨"u1", 3, "a@b.c", "F", "L"⟩⟩], some "e1"⟩,
       ⟨[⟨"e2", "c", "user.updated", ⟨"u1", 5, "a@b.c", "F", "L"⟩⟩], none⟩] emptySt
      ⟨"e2", "c", "user.updated", ⟨"u1", 5, "a@b.c", "F", "L"⟩⟩ (by decide)⟩

/-! ### Claim C3 -/

theorem applyUserDispatch_updated_missing {e : WEvent} {s : St}
    (hev : e.event = "user.updated")
    (hnone : ∀ r ∈ s.users, r.doc.id ≠ e.data.id) :
    applyUserDispatch e s = s := by
  have hfind : s.users.find? (fun r => r.doc.id = e.data.id) = none :=
    List.find?_eq_none.mpr (fun r hr => by simp [hnone r hr])
  unfold applyUserDispatch
  rw [hev]
  simp [hfind]

/-- Counterexample to claim C3 as stated: `processEvent` has no
`createOnMissingUpdate` option — its only options are `logLevel` and
`onEventHandle` — and under every available configuration a `user.updated`
event for an id with no existing mirror record inserts nothing into the
mirror (shown here for both extreme configurations at a concrete event on
the empty store); the event is still recorded, so processing continued. -/
theorem C3_counterexample :
    (processEvent ⟨"e1", "c", "user.updated", ⟨"u1", 5, "a@b.c", "F", "L"⟩⟩
        none none emptySt).users = [] ∧
    (processEvent ⟨"e1", "c", "user.updated", ⟨"u1", 5, "a@b.c", "F", "L"⟩⟩
        (some "DEBUG") (some "h") emptySt).users = [] ∧
    storeIds (processEvent ⟨"e1", "c", "user.updated", ⟨"u1", 5, "a@b.c", "F", "L"⟩⟩
        none none emptySt) = ["e1"] := by
  decide

/-- Claim C3 (amended): `processEvent` has no `createOnMissingUpdate`
option; when it receives a fresh `user.updated` event for an id with no
existing mirror record it always skips the mirror mutation (after an
error-level report) and continues — the event is still recorded and the
caller handler still invoked — under every option configuration. -/
theorem C3_amended_updated_missing_skips (e : WEvent) (lg hd : Option String) (s : St)
    (hev : e.event = "user.updated")
    (hfresh : e.id ∉ storeIds s)
    (hnouser : ∀ r ∈ s.users, r.doc.id ≠ e.data.id) :
    (processEvent e lg hd s).users = s.users ∧
    (processEvent e lg hd s).events
      = s.events ++ [⟨e.id, e.event, e.data.updatedAt, s.nextTime⟩] ∧
    (processEvent e lg hd s).handlerLog
      = s.handlerLog
        ++ (match hd with | none => [] | some _ => [⟨e.id, e.event, e.data⟩]) := by
  refine ⟨?_, processEvent_events_of_fresh hfresh lg hd,
    processEvent_handlerLog_of_fresh hfresh lg hd⟩
  rw [processEvent_of_fresh hfresh lg hd, applyHandler_users]
  have h2 : applyUserDispatch e (insertEventRow e s) = insertEventRow e s :=
    applyUserDispatch_updated_missing hev (fun r hr => hnouser r hr)
  rw [h2]
  rfl

/-- Witness for the amended C3 at a concrete event and state. -/
theorem C3_amended_witness :
    (processEvent ⟨"e2", "c", "user.updated", ⟨"u2", 7, "a@b.c", "F", "L"⟩⟩
        none (some "h") emptySt).users = emptySt.users ∧
    (processEvent ⟨"e2", "c", "user.updated", ⟨"u2", 7, "a@b.c", "F", "L"⟩⟩
        none (some "h") emptySt).events
      = emptySt.events ++ [⟨"e2", "user.updated", 7, emptySt.nextTime⟩] ∧
    (processEvent ⟨"e2", "c", "user.updated", ⟨"u2", 7, "a@b.c", "F", "L"⟩⟩
        none (some "h") emptySt).handlerLog
      = emptySt.handlerLog
        ++ [⟨"e2", "user.updated", ⟨"u2", 7, "a@b.c", "F", "L"⟩⟩] :=
  C3_amended_updated_missing_skips
    ⟨"e2", "c", "user.updated", ⟨"u2", 7, "a@b.c", "F", "L"⟩⟩ none (some "h") emptySt
    rfl (by decide) (by decide)

/-! ### Claim C4 -/

/-- Modelled from the spec: the claimed `initialRangeHours` option
(default 168 hours) and the time-range start `now − initialRangeHours` that
the first Live Sync Puller run is said to use. No such mechanism exists in
`updateEvents`; these definitions only serve to state the claim. -/
def initialRangeHours : Nat := 168

/-- Modelled from the spec: `now − initialRangeHours` in milliseconds. -/
def specInitialRangeStart (now : Nat) : Nat := now - initialRangeHours * 3600000

theorem pullLoop_head_request (types : List String) (lg hd : Option String)
    (cur : Option String) (pages : List Page) (s : St) :
    (pullLoop types lg hd cur pages s).2.head? = some ⟨types, cur, none⟩ := by
  cases pages with
  | nil => rfl
  | cons p rest =>
    cases hafter : p.after with
    | none => simp [pullLoop, hafter]
    | some c => simp [pullLoop, hafter]

/-- Counterexample to claim C4 as stated: on the very first run (empty Event
Store, hence no cursor) the puller's first `listEvents` request carries no
time-range restriction at all — its `rangeStart` is `none`, not
`now − initialRangeHours` (shown at `now = 1700000000000`); the fetch is
unbounded history. -/
theorem C4_counterexample :
    (updateEvents "k" none none none [] emptySt).2
      = [⟨baseEventTypes, none, none⟩] ∧
    (⟨baseEventTypes, none, none⟩ : ListRequest).rangeStart
      ≠ some (specInitialRangeStart 1700000000000) := by
  decide

/-- Claim C4 (amended): on the very first Live Sync Puller run (no cursor
exists, i.e. the Event Store is empty), the first request is issued with
`after = none` and no time-range restriction — the puller attempts to pull
the feed from the beginning of its history; no `initialRangeHours`
mechanism exists in the code. -/
theorem C4_amended_first_request_unbounded (apiKey : String) (hd : Option String)
    (et : Option (List String)) (lg : Option String) (pages : List Page) (s : St)
    (hempty : s.events = []) :
    (updateEvents apiKey hd et lg pages s).2.head?
      = some ⟨baseEventTypes ++ et.getD [], none, none⟩ := by
  have hc : getCursor s = none := by rw [getCursor, hempty]; rfl
  unfold updateEvents
  rw [hc]
  exact pullLoop_head_request _ lg hd none pages s

/-- Witness for the amended C4 at a concrete feed and the empty store. -/
theorem C4_amended_witness :
    (updateEvents "k" none (some ["X"]) none
        [⟨[⟨"e1", "c", "user.created", ⟨"u1", 3, "a@b.c", "F", "L"⟩⟩], none⟩]
        emptySt).2.head?
      = some ⟨baseEventTypes ++ ["X"], none, none⟩ :=
  C4_amended_first_request_unbounded "k" none (some ["X"]) none
    [⟨[⟨"e1", "c", "user.created", ⟨"u1", 3, "a@b.c", "F", "L"⟩⟩], none⟩] emptySt rfl

/-! ### User-mirror characterization lemmas (for C2, C5) -/

/-- The `ctx.db.patch(user._id, data)` of the `user.updated` branch: replace
the doc of the row with the matching `_id` (ghost `applied` extended). -/
def patchRow (sid : Nat) (d : UserDoc) (r : UserRow) : UserRow :=
  if r.sysId = sid then ⟨r.sysId, d, r.applied ++ [d.updatedAt]⟩ else r

theorem map_patchRow_sysId (us : List UserRow) (sid : Nat) (d : UserDoc) :
    (us.map (patchRow sid d)).map (fun r => r.sysId) = us.map (fun r => r.sysId) := by
  rw [List.map_map]
  apply List.map_congr_left
  intro a _
  by_cases h : a.sysId = sid <;> simp [patchRow, h]

theorem map_patchRow_docid {us : List UserRow} {row : UserRow} {d : UserDoc}
    (hs : (us.map (fun r => r.sysId)).Nodup) (hmem : row ∈ us)
    (hid : d.id = row.doc.id) :
    (us.map (patchRow row.sysId d)).map (fun r => r.doc.id)
      = us.map (fun r => r.doc.id) := by
  rw [List.map_map]
  apply List.map_congr_left
  intro a ha
  by_cases h : a.sysId = row.sysId
  · have ha2 : a = row := List.inj_on_of_nodup_map hs ha hmem h
    subst ha2
    simp [patchRow, hid]
  · simp [patchRow, h]

theorem find?_map_patchRow {us : List UserRow} {row : UserRow} {d : UserDoc} {uid : String}
    (hn : (us.map (fun r => r.doc.id)).Nodup)
    (hs : (us.map (fun r => r.sysId)).Nodup)
    (hmem : row ∈ us) (hrowid : row.doc.id = uid) (hdid : d.id = uid) :
    (us.map (patchRow row.sysId d)).find? (fun r => r.doc.id = uid)
      = some ⟨row.sysId, d, row.applied ++ [d.updatedAt]⟩ := by
  induction us with
  | nil => cases hmem
  | cons a t ih =>
    simp only [List.map_cons, List.nodup_cons] at hn hs
    rcases List.mem_cons.mp hmem with rfl | hmt
    · rw [List.map_cons, List.find?_cons_of_pos _ (by simp [patchRow, hdid])]
      simp [patchRow]
    · have hsys : a.sysId ≠ row.sysId := fun h =>
        hs.1 (h ▸ List.mem_map_of_mem (fun r => r.sysId) hmt)
      have hdocid : a.doc.id ≠ uid := fun h =>
        hn.1 ((h.trans hrowid.symm) ▸ List.mem_map_of_mem (fun r => r.doc.id) hmt)
      rw [List.map_cons, List.find?_cons_of_neg _ (by simp [patchRow, hsys, hdocid])]
      exact ih hn.2 hs.2 hmt

/-- Characterization of the `user.updated` dispatch when a user with the
event's data id exists: skip if the stored `updatedAt` is at least the
event's, else patch that row. -/
theorem applyUserDispatch_users_updated {e : WEvent} {s : St} {row : UserRow}
    (hev : e.event = "user.updated")
    (hn : (s.users.map (fun r => r.doc.id)).Nodup)
    (hmem : row ∈ s.users) (hid : row.doc.id = e.data.id) :
    (applyUserDispatch e s).users
      = if e.data.updatedAt ≤ row.doc.updatedAt then s.users
        else s.users.map (patchRow row.sysId e.data) := by
  have hfind : s.users.find? (fun r => r.doc.id = e.data.id) = some row := by
    have h0 := find?_key_eq_some (fun r : UserRow => r.doc.id) s.users row hn hmem
    simp only at h0
    simp only [hid] at h0
    exact h0
  unfold applyUserDispatch
  rw [hev]
  by_cases hle : e.data.updatedAt ≤ row.doc.updatedAt <;> simp [hfind, hle, patchRow]

/-- `processEvent` on a fresh `user.updated` event whose user exists. -/
theorem processEvent_users_updated {e : WEvent} {s : St} {row : UserRow}
    (hev : e.event = "user.updated") (hfresh : e.id ∉ storeIds s)
    (hn : (s.users.map (fun r => r.doc.id)).Nodup)
    (hmem : row ∈ s.users) (hid : row.doc.id = e.data.id)
    (lg hd : Option String) :
    (processEvent e lg hd s).users
      = if e.data.updatedAt ≤ row.doc.updatedAt then s.users
        else s.users.map (patchRow row.sysId e.data) := by
  rw [processEvent_of_fresh hfresh lg hd, applyHandler_users]
  exact applyUserDispatch_users_updated hev hn hmem hid

theorem getAuthUser_congr {a b : St} (uid : String) (h : a.users = b.users) :
    getAuthUser uid a = getAuthUser uid b := by
  rw [getAuthUser, getAuthUser, h]

/-! ### Claim C2 -/

/-- Claim C2: last-writer-wins — for two fresh, distinct `user.updated`
events `e1, e2` for the same user id with
`e1.data.updatedAt < e2.data.updatedAt`, applied from any state in which
that user exists (with duplicate-free key columns), either application order
yields the same final mirror record for that user as applying only `e2`. -/
theorem C2_last_writer_wins (e1 e2 : WEvent) (lg hd : Option String) (s : St)
    (row : UserRow) (uid : String)
    (hev1 : e1.event = "user.updated") (hev2 : e2.event = "user.updated")
    (hid1 : e1.data.id = uid) (hid2 : e2.data.id = uid)
    (hlt : e1.data.updatedAt < e2.data.updatedAt)
    (hne : e1.id ≠ e2.id)
    (hf1 : e1.id ∉ storeIds s) (hf2 : e2.id ∉ storeIds s)
    (hmem : row ∈ s.users) (hrowid : row.doc.id = uid)
    (hnu : (s.users.map (fun r => r.doc.id)).Nodup)
    (hns : (s.users.map (fun r => r.sysId)).Nodup) :
    getAuthUser uid (processEvent e2 lg hd (processEvent e1 lg hd s))
      = getAuthUser uid (processEvent e2 lg hd s) ∧
    getAuthUser uid (processEvent e1 lg hd (processEvent e2 lg hd s))
      = getAuthUser uid (processEvent e2 lg hd s) := by
  have hf21 : e2.id ∉ storeIds (processEvent e1 lg hd s) := fun h =>
    hf2 ((mem_storeIds_processEvent_ne hne lg hd s).mp h)
  have hf12 : e1.id ∉ storeIds (processEvent e2 lg hd s) := fun h =>
    hf1 ((mem_storeIds_processEvent_ne (Ne.symm hne) lg hd s).mp h)
  have hCchar : (processEvent e2 lg hd s).users
      = if e2.data.updatedAt ≤ row.doc.updatedAt then s.users
        else s.users.map (patchRow row.sysId e2.data) :=
    processEvent_users_updated hev2 hf2 hnu hmem (hrowid.trans hid2.symm) lg hd
  -- second conjunct: e2 first, then e1 (e1 is always stale after e2)
  have hBside : getAuthUser uid (processEvent e1 lg hd (processEvent e2 lg hd s))
      = getAuthUser uid (processEvent e2 lg hd s) := by
    by_cases hle2 : e2.data.updatedAt ≤ row.doc.updatedAt
    · have hu2 : (processEvent e2 lg hd s).users = s.users := by
        rw [hCchar, if_pos hle2]
      have hle1 : e1.data.updatedAt ≤ row.doc.updatedAt := le_trans hlt.le hle2
      refine getAuthUser_congr uid ?_
      rw [processEvent_users_updated hev1 hf12 (by rw [hu2]; exact hnu)
          (by rw [hu2]; exact hmem) (hrowid.trans hid1.symm) lg hd]
      rw [hu2, if_pos hle1]
    · have hu2 : (processEvent e2 lg hd s).users
          = s.users.map (patchRow row.sysId e2.data) := by
        rw [hCchar, if_neg hle2]
      have hfind2 := find?_map_patchRow hnu hns hmem hrowid hid2
      have hmem2 : (⟨row.sysId, e2.data, row.applied ++ [e2.data.updatedAt]⟩ : UserRow)
          ∈ s.users.map (patchRow row.sysId e2.data) := List.mem_of_find?_eq_some hfind2
      have hnuB : ((processEvent e2 lg hd s).users.map (fun r => r.doc.id)).Nodup := by
        rw [hu2, map_patchRow_docid hns hmem (hid2.trans hrowid.symm)]
        exact hnu
      have hmemB : (⟨row.sysId, e2.data, row.applied ++ [e2.data.updatedAt]⟩ : UserRow)
          ∈ (processEvent e2 lg hd s).users := by
        rw [hu2]
        exact hmem2
      refine getAuthUser_congr uid ?_
      rw [processEvent_users_updated hev1 hf12 hnuB hmemB (hid2.trans hid1.symm) lg hd]
      rw [if_pos hlt.le]
  refine ⟨?_, hBside⟩
  by_cases hle1 : e1.data.updatedAt ≤ row.doc.updatedAt
  · -- e1 is stale already in the starting state
    have hu1 : (processEvent e1 lg hd s).users = s.users := by
      rw [processEvent_users_updated hev1 hf1 hnu hmem (hrowid.trans hid1.symm) lg hd,
        if_pos hle1]
    have hAchar : (processEvent e2 lg hd (processEvent e1 lg hd s)).users
        = if e2.data.updatedAt ≤ row.doc.updatedAt then s.users
          else s.users.map (patchRow row.sysId e2.data) := by
      rw [processEvent_users_updated hev2 hf21 (by rw [hu1]; exact hnu)
          (by rw [hu1]; exact hmem) (hrowid.trans hid2.symm) lg hd, hu1]
    exact getAuthUser_congr uid (hAchar.trans hCchar.symm)
  · -- e1 patches first, e2 overwrites
    have ht01 : row.doc.updatedAt < e1.data.updatedAt := not_le.mp hle1
    have ht02 : row.doc.updatedAt < e2.data.updatedAt := lt_trans ht01 hlt
    have hu1 : (processEvent e1 lg hd s).users
        = s.users.map (patchRow row.sysId e1.data) := by
      rw [processEvent_users_updated hev1 hf1 hnu hmem (hrowid.trans hid1.symm) lg hd,
        if_neg hle1]
    have hfind1 := find?_map_patchRow hnu hns hmem hrowid hid1
    have hmem1 : (⟨row.sysId, e1.data, row.applied ++ [e1.data.updatedAt]⟩ : UserRow)
        ∈ s.users.map (patchRow row.sysId e1.data) := List.mem_of_find?_eq_some hfind1
    have hnu1 : ((s.users.map (patchRow row.sysId e1.data)).map (fun r => r.doc.id)).Nodup := by
      rw [map_patchRow_docid hns hmem (hid1.trans hrowid.symm)]
      exact hnu
    have hns1 : ((s.users.map (patchRow row.sysId e1.data)).map (fun r => r.sysId)).Nodup := by
      rw [map_patchRow_sysId]
      exact hns
    have hAchar : (processEvent e2 lg hd (processEvent e1 lg hd s)).users
        = (s.users.map (patchRow row.sysId e1.data)).map (patchRow row.sysId e2.data) := by
      have hnuA : ((processEvent e1 lg hd s).users.map (fun r => r.doc.id)).Nodup := by
        rw [hu1]
        exact hnu1
      have hmemA : (⟨row.sysId, e1.data, row.applied ++ [e1.data.updatedAt]⟩ : UserRow)
          ∈ (processEvent e1 lg hd s).users := by
        rw [hu1]
        exact hmem1
      rw [processEvent_users_updated hev2 hf21 hnuA hmemA (hid1.trans hid2.symm) lg hd]
      rw [if_neg (not_le.mpr hlt), hu1]
    have hgA : getAuthUser uid (processEvent e2 lg hd (processEvent e1 lg hd s))
        = some e2.data := by
      show ((processEvent e2 lg hd (processEvent e1 lg hd s)).users.find?
          (fun r => r.doc.id = uid)).map (fun r => r.doc) = some e2.data
      rw [hAchar, find?_map_patchRow hnu1 hns1 hmem1 hid1 hid2]
      rfl
    have hgC : getAuthUser uid (processEvent e2 lg hd s) = some e2.data := by
      show ((processEvent e2 lg hd s).users.find?
          (fun r => r.doc.id = uid)).map (fun r => r.doc) = some e2.data
      rw [hCchar, if_neg (not_le.mpr ht02), find?_map_patchRow hnu hns hmem hrowid hid2]
      rfl
    exact hgA.trans hgC.symm

/-- Witness for C2 at concrete events and a concrete one-user state. -/
theorem C2_witness :
    getAuthUser "u1"
        (processEvent ⟨"e2", "c", "user.updated", ⟨"u1", 9, "c@d.e", "G", "M"⟩⟩ none none
          (processEvent ⟨"e1", "c", "user.updated", ⟨"u1", 5, "b@c.d", "F", "L"⟩⟩ none none
            { emptySt with users := [⟨0, ⟨"u1", 1, "a@b.c", "F", "L"⟩, [1]⟩], nextSysId := 1 }))
      = getAuthUser "u1"
        (processEvent ⟨"e2", "c", "user.updated", ⟨"u1", 9, "c@d.e", "G", "M"⟩⟩ none none
          { emptySt with users := [⟨0, ⟨"u1", 1, "a@b.c", "F", "L"⟩, [1]⟩], nextSysId := 1 }) ∧
    getAuthUser "u1"
        (processEvent ⟨"e1", "c", "user.updated", ⟨"u1", 5, "b@c.d", "F", "L"⟩⟩ none none
          (processEvent ⟨"e2", "c", "user.updated", ⟨"u1", 9, "c@d.e", "G", "M"⟩⟩ none none
            { emptySt with users := [⟨0, ⟨"u1", 1, "a@b.c", "F", "L"⟩, [1]⟩], nextSysId := 1 }))
      = getAuthUser "u1"
        (processEvent ⟨"e2", "c", "user.updated", ⟨"u1", 9, "c@d.e", "G", "M"⟩⟩ none none
          { emptySt with users := [⟨0, ⟨"u1", 1, "a@b.c", "F", "L"⟩, [1]⟩], nextSysId := 1 }) :=
  C2_last_writer_wins
    ⟨"e1", "c", "user.updated", ⟨"u1", 5, "b@c.d", "F", "L"⟩⟩
    ⟨"e2", "c", "user.updated", ⟨"u1", 9, "c@d.e", "G", "M"⟩⟩ none none
    { emptySt with users := [⟨0, ⟨"u1", 1, "a@b.c", "F", "L"⟩, [1]⟩], nextSysId := 1 }
    ⟨0, ⟨"u1", 1, "a@b.c", "F", "L"⟩, [1]⟩ "u1"
    rfl rfl rfl rfl (by decide) (by decide) (by decide) (by decide)
    (by decide) rfl (by decide) (by decide)

/-! ### Claim C5 -/

/-- The invariant exactly as claim C5 states it, over the ghost trace of all
mirror-mutating `user.created` / `user.updated` applications: every user id
present in the mirror stores an `updatedAt` at least as large as that of
every create/update event ever applied to that id. -/
def AppliedHistoryInv (s : St) : Prop :=
  ∀ row ∈ s.users, ∀ p ∈ s.appliedOps, p.1 = row.doc.id → p.2 ≤ row.doc.updatedAt

instance (s : St) : Decidable (AppliedHistoryInv s) := by
  unfold AppliedHistoryInv
  infer_instance

/-- The per-record-lifetime version: every user row stores an `updatedAt` at
least as large as that of every create/update applied to that row since the
row was created. -/
def RowInvList (us : List UserRow) : Prop :=
  ∀ row ∈ us, ∀ t ∈ row.applied, t ≤ row.doc.updatedAt

/-- The per-record-lifetime invariant of a state. -/
def AppliedRowInv (s : St) : Prop := RowInvList s.users

instance (us : List UserRow) : Decidable (RowInvList us) := by
  unfold RowInvList
  infer_instance

instance (s : St) : Decidable (AppliedRowInv s) := by
  unfold AppliedRowInv
  infer_instance

/-- The events of the counterexample trace: create `u1` at time 3, update it
to time 5, delete it. -/
def c5Trace : List WEvent :=
  [⟨"f1", "c", "user.created", ⟨"u1", 3, "a@b.c", "F", "L"⟩⟩,
   ⟨"f2", "c", "user.updated", ⟨"u1", 5, "a@b.c", "F", "L"⟩⟩,
   ⟨"f3", "c", "user.deleted", ⟨"u1", 5, "a@b.c", "F", "L"⟩⟩]

/-- Counterexample to claim C5 as stated: the invariant is not kept by every
`processEvent` application. After create(3), update(5), delete of `u1`, a
fresh `user.created` for `u1` with `updatedAt = 2` is applied (the mirror has
no record, so the insert executes), yet the `user.updated` event with
stamp 5 was applied to that id earlier: the recreated record stores 2 < 5.
The state before this application satisfies the invariant; the state after
violates it. -/
theorem C5_counterexample :
    AppliedHistoryInv (processTrace c5Trace none none emptySt) ∧
    ¬ AppliedHistoryInv
        (processEvent ⟨"f4", "c", "user.created", ⟨"u1", 2, "a@b.c", "F", "L"⟩⟩ none none
          (processTrace c5Trace none none emptySt)) := by
  decide

theorem RowInvList_dispatch (e : WEvent) (s : St)
    (hns : (s.users.map (fun r => r.sysId)).Nodup)
    (hinv : RowInvList s.users) : RowInvList (applyUserDispatch e s).users := by
  unfold applyUserDispatch
  by_cases h1 : e.event = "user.created"
  · rw [if_pos h1]
    cases hfind : s.users.find? (fun r => r.doc.id = e.data.id) with
    | some u => simp only [hfind]; exact hinv
    | none =>
      simp only [hfind]
      intro row hm t ht
      rcases List.mem_append.mp hm with hold | hnew
      · exact hinv row hold t ht
      · simp only [List.mem_singleton] at hnew
        subst hnew
        simp only [List.mem_singleton] at ht
        simp [ht]
  · rw [if_neg h1]
    by_cases h2 : e.event = "user.updated"
    · rw [if_pos h2]
      cases hfind : s.users.find? (fun r => r.doc.id = e.data.id) with
      | none => simp only [hfind]; exact hinv
      | some u =>
        simp only [hfind]
        by_cases hle : e.data.updatedAt ≤ u.doc.updatedAt
        · rw [if_pos hle]; exact hinv
        · rw [if_neg hle]
          intro row hm t ht
          rcases List.mem_map.mp hm with ⟨r, hr, hre⟩
          by_cases hsys : r.sysId = u.sysId
          · have hru : r = u :=
              List.inj_on_of_nodup_map hns hr (List.mem_of_find?_eq_some hfind) hsys
            rw [if_pos hsys] at hre
            subst hre
            simp only at ht ⊢
            rcases List.mem_append.mp ht with hta | htb
            · have h4 : t ≤ u.doc.updatedAt := hru ▸ hinv r hr t hta
              exact le_trans h4 (le_of_lt (not_le.mp hle))
            · simp only [List.mem_singleton] at htb
              simp [htb]
          · rw [if_neg hsys] at hre
            subst hre
            exact hinv r hr t ht
    · rw [if_neg h2]
      by_cases h3 : e.event = "user.deleted"
      · rw [if_pos h3]
        cases hfind : s.users.find? (fun r => r.doc.id = e.data.id) with
        | none => simp only [hfind]; exact hinv
        | some u =>
          simp only [hfind]
          intro row hm
          exact hinv row (List.mem_of_mem_filter hm)
      · rw [if_neg h3]; exact hinv

/-- Claim C5 (amended): restricted to each record's lifetime, the invariant
is kept by every `processEvent` application — for every user row, the stored
`updatedAt` is at least the `updatedAt` of every `user.created`/`user.updated`
event applied to that record since its creation — and an incoming
`user.updated` whose `updatedAt` is ≤ the stored value is discarded, not
applied (the mirror is left unchanged). The unrestricted full-history version
fails on delete-then-recreate (see the counterexample). -/
theorem C5_staleness_invariant (e : WEvent) (lg hd : Option String) (s : St)
    (hnu : (s.users.map (fun r => r.doc.id)).Nodup)
    (hns : (s.users.map (fun r => r.sysId)).Nodup)
    (hinv : AppliedRowInv s) :
    AppliedRowInv (processEvent e lg hd s) ∧
    (∀ row ∈ s.users, e.event = "user.updated" → row.doc.id = e.data.id →
      e.data.updatedAt ≤ row.doc.updatedAt →
      (processEvent e lg hd s).users = s.users) := by
  constructor
  · by_cases hfresh : e.id ∈ storeIds s
    · rw [processEvent_of_mem hfresh lg hd]
      exact hinv
    · rw [processEvent_of_fresh hfresh lg hd]
      show RowInvList (applyHandler e hd (applyUserDispatch e (insertEventRow e s))).users
      rw [applyHandler_users]
      exact RowInvList_dispatch e (insertEventRow e s) hns hinv
  · intro row hm hev hid hle
    by_cases hfresh : e.id ∈ storeIds s
    · rw [processEvent_of_mem hfresh lg hd]
    · rw [processEvent_users_updated hev hfresh hnu hm hid lg hd, if_pos hle]

/-- Witness for the amended C5 at a concrete state and a concrete stale
update (incoming stamp 4 against stored stamp 5): the lifetime invariant is
preserved and the mirror is unchanged. -/
theorem C5_witness :
    AppliedRowInv
        (processEvent ⟨"g1", "c", "user.updated", ⟨"u1", 4, "a@b.c", "F", "L"⟩⟩ none none
          { emptySt with users := [⟨0, ⟨"u1", 5, "a@b.c", "F", "L"⟩, [3, 5]⟩],
                         nextSysId := 1 }) ∧
    (processEvent ⟨"g1", "c", "user.updated", ⟨"u1", 4, "a@b.c", "F", "L"⟩⟩ none none
        { emptySt with users := [⟨0, ⟨"u1", 5, "a@b.c", "F", "L"⟩, [3, 5]⟩],
                       nextSysId := 1 }).users
      = ({ emptySt with users := [⟨0, ⟨"u1", 5, "a@b.c", "F", "L"⟩, [3, 5]⟩],
                        nextSysId := 1 } : St).users :=
  ⟨(C5_staleness_invariant ⟨"g1", "c", "user.updated", ⟨"u1", 4, "a@b.c", "F", "L"⟩⟩
      none none
      { emptySt with users := [⟨0, ⟨"u1", 5, "a@b.c", "F", "L"⟩, [3, 5]⟩], nextSysId := 1 }
      (by decide) (by decide) (by decide)).1,
   (C5_staleness_invariant ⟨"g1", "c", "user.updated", ⟨"u1", 4, "a@b.c", "F", "L"⟩⟩
      none none
      { emptySt with users := [⟨0, ⟨"u1", 5, "a@b.c", "F", "L"⟩, [3, 5]⟩], nextSysId := 1 }
      (by decide) (by decide) (by decide)).2
     ⟨0, ⟨"u1", 5, "a@b.c", "F", "L"⟩, [3, 5]⟩ (by decide) rfl rfl (by decide)⟩

/-! ### Backfill loop characterization (for C6) -/

theorem getLast?_cons_or {α : Type} (a : α) (l : List α) (x : Option α) :
    ((a :: l).getLast?).or x = (l.getLast?).or (some a) := by
  cases l with
  | nil => rfl
  | cons b t =>
    rw [List.getLast?_cons_cons]
    cases h : (b :: t).getLast? with
    | none => simp at h
    | some y => rfl

theorem backfillPage_lastEventId (lg hd : Option String) (missing : List String) :
    ∀ (pg : List WEvent) (acc : St × BackfillResult),
      (backfillPage lg hd missing pg acc).2.lastEventId
        = ((pg.map (·.id)).getLast?).or acc.2.lastEventId := by
  intro pg
  induction pg with
  | nil => intro acc; rfl
  | cons e t ih =>
    intro acc
    rw [show backfillPage lg hd missing (e :: t) acc
        = backfillPage lg hd missing t
            (if e.id ∈ missing then
              (processEvent e lg hd acc.1,
               { acc.2 with processed := acc.2.processed + 1, lastEventId := some e.id })
             else
              (acc.1,
               { acc.2 with skipped := acc.2.skipped + 1, lastEventId := some e.id }))
      from rfl]
    rw [ih]
    have h2 : (if e.id ∈ missing then
        (processEvent e lg hd acc.1,
         { acc.2 with processed := acc.2.processed + 1, lastEventId := some e.id })
       else
        (acc.1,
         { acc.2 with skipped := acc.2.skipped + 1, lastEventId := some e.id })).2.lastEventId
        = some e.id := by
      split <;> rfl
    rw [h2, List.map_cons, getLast?_cons_or]

theorem backfillPage_syncState (lg hd : Option String) (missing : List String) :
    ∀ (pg : List WEvent) (acc : St × BackfillResult),
      (backfillPage lg hd missing pg acc).1.syncState = acc.1.syncState := by
  intro pg
  induction pg with
  | nil => intro acc; rfl
  | cons e t ih =>
    intro acc
    rw [show backfillPage lg hd missing (e :: t) acc
        = backfillPage lg hd missing t
            (if e.id ∈ missing then
              (processEvent e lg hd acc.1,
               { acc.2 with processed := acc.2.processed + 1, lastEventId := some e.id })
             else
              (acc.1,
               { acc.2 with skipped := acc.2.skipped + 1, lastEventId := some e.id }))
      from rfl]
    rw [ih]
    by_cases hm : e.id ∈ missing <;> simp [hm, processEvent_syncState]

theorem backfillLoop_lastEventId (lg hd : Option String) (ct : Nat) :
    ∀ (pages : List Page) (s : St) (r : BackfillResult),
      (backfillLoop lg hd ct pages s r).2.lastEventId
        = (((bfWalk pages).map (·.id)).getLast?).or r.lastEventId := by
  intro pages
  induction pages with
  | nil => intro s r; rfl
  | cons pg rest ih =>
    intro s r
    by_cases hemp : pg.data.isEmpty
    · simp [backfillLoop, bfWalk, hemp]
    · cases hafter : pg.after with
      | none =>
        simp only [backfillLoop, bfWalk, hemp, Bool.false_eq_true, if_false, hafter]
        rw [backfillPage_lastEventId]
        simp
      | some c =>
        simp only [backfillLoop, bfWalk, hemp, Bool.false_eq_true, if_false, hafter]
        rw [ih, backfillPage_lastEventId]
        simp [Option.or_assoc]

theorem backfillLoop_syncState (lg hd : Option String) (ct : Nat) :
    ∀ (pages : List Page) (s : St) (r : BackfillResult),
      (backfillLoop lg hd ct pages s r).1.syncState = s.syncState := by
  intro pages
  induction pages with
  | nil => intro s r; rfl
  | cons pg rest ih =>
    intro s r
    by_cases hemp : pg.data.isEmpty
    · simp [backfillLoop, hemp]
    · cases hafter : pg.after with
      | none =>
        simp only [backfillLoop, hemp, Bool.false_eq_true, if_false, hafter]
        rw [backfillPage_syncState]
      | some c =>
        simp only [backfillLoop, hemp, Bool.false_eq_true, if_false, hafter]
        rw [ih, backfillPage_syncState]

theorem backfillLoop_of_no_walk (lg hd : Option String) (ct : Nat)
    (pages : List Page) (s : St) (r : BackfillResult)
    (h : bfWalk pages = []) : backfillLoop lg hd ct pages s r = (s, r) := by
  cases pages with
  | nil => rfl
  | cons pg rest =>
    by_cases hemp : pg.data.isEmpty
    · simp [backfillLoop, hemp]
    · exfalso
      simp only [bfWalk, hemp, Bool.false_eq_true, if_false] at h
      exact hemp (by simp [List.append_eq_nil.mp h |>.1])

/-! ### Claim C6 -/

/-- Claim C6: after a `backfillEvents` run completes its page loop, the
Checkpoint is advanced to the id of the last event observed in the walk if
and only if at least one event was observed (`lastEventId` non-null); if the
feed returned no events (the walk is empty) the run returns the state — and
in particular the Checkpoint — unchanged, and the returned `lastEventId`
reflects this by being the last observed event id (hence `none` exactly when
nothing was observed). -/
theorem C6_backfill_checkpoint (apiKey : String) (hd : Option String)
    (et : Option (List String)) (lg : Option String) (pages : List Page) (s : St) :
    (backfillEvents apiKey hd et lg pages s).2.lastEventId
      = ((bfWalk pages).map (·.id)).getLast? ∧
    (∀ id0, (backfillEvents apiKey hd et lg pages s).2.lastEventId = some id0 →
      (backfillEvents apiKey hd et lg pages s).1.syncState = some id0) ∧
    ((backfillEvents apiKey hd et lg pages s).2.lastEventId = none →
      backfillEvents apiKey hd et lg pages s = (s, ⟨0, 0, none⟩)) := by
  have hwalk := backfillLoop_lastEventId lg hd
    (((getLastCheckpointedEvent s).map Prod.snd).getD 0) pages s ⟨0, 0, none⟩
  rw [show ((⟨0, 0, none⟩ : BackfillResult)).lastEventId = none from rfl, Option.or_none]
    at hwalk
  have hsplit : backfillEvents apiKey hd et lg pages s
      = (match (backfillLoop lg hd (((getLastCheckpointedEvent s).map Prod.snd).getD 0)
            pages s ⟨0, 0, none⟩).2.lastEventId with
         | some id0 =>
            updateLastCheckpointedEventId id0
              (backfillLoop lg hd (((getLastCheckpointedEvent s).map Prod.snd).getD 0)
                pages s ⟨0, 0, none⟩).1
         | none =>
            (backfillLoop lg hd (((getLastCheckpointedEvent s).map Prod.snd).getD 0)
              pages s ⟨0, 0, none⟩).1,
         (backfillLoop lg hd (((getLastCheckpointedEvent s).map Prod.snd).getD 0)
           pages s ⟨0, 0, none⟩).2) := by
    simp only [backfillEvents]
    cases (backfillLoop lg hd (((getLastCheckpointedEvent s).map Prod.snd).getD 0)
        pages s ⟨0, 0, none⟩).2.lastEventId <;> rfl
  have hp2 : (backfillEvents apiKey hd et lg pages s).2
      = (backfillLoop lg hd (((getLastCheckpointedEvent s).map Prod.snd).getD 0)
          pages s ⟨0, 0, none⟩).2 := by
    rw [hsplit]
  refine ⟨by rw [hp2]; exact hwalk, ?_, ?_⟩
  · intro id0 h0
    rw [hp2] at h0
    rw [hsplit]
    show (match (backfillLoop lg hd (((getLastCheckpointedEvent s).map Prod.snd).getD 0)
        pages s ⟨0, 0, none⟩).2.lastEventId with
      | some id0 =>
          updateLastCheckpointedEventId id0
            (backfillLoop lg hd (((getLastCheckpointedEvent s).map Prod.snd).getD 0)
              pages s ⟨0, 0, none⟩).1
      | none =>
          (backfillLoop lg hd (((getLastCheckpointedEvent s).map Prod.snd).getD 0)
            pages s ⟨0, 0, none⟩).1).syncState = some id0
    rw [h0]
    rfl
  · intro h0
    rw [hp2] at h0
    have hnil : bfWalk pages = [] := by
      rw [h0] at hwalk
      have h1 := hwalk.symm
      rw [List.getLast?_eq_none_iff] at h1
      exact List.map_eq_nil_iff.mp h1
    have hloop := backfillLoop_of_no_walk lg hd
      (((getLastCheckpointedEvent s).map Prod.snd).getD 0) pages s ⟨0, 0, none⟩ hnil
    rw [hsplit, hloop]

/-- Witness for C6 at concrete inputs: a one-event feed advances the
Checkpoint to that event's id, and an empty feed leaves a checkpointed state
entirely unchanged. -/
theorem C6_witness :
    (backfillEvents "k" none none none
        [⟨[⟨"b1", "c", "user.created", ⟨"u1", 3, "a@b.c", "F", "L"⟩⟩], none⟩]
        emptySt).1.syncState = some "b1" ∧
    backfillEvents "k" none none none [⟨[], none⟩]
        { emptySt with events := [⟨"e0", "user.created", 1, 1⟩],
                       syncState := some "e0", nextTime := 2 }
      = ({ emptySt with events := [⟨"e0", "user.created", 1, 1⟩],
                        syncState := some "e0", nextTime := 2 }, ⟨0, 0, none⟩) :=
  ⟨(C6_backfill_checkpoint "k" none none none
      [⟨[⟨"b1", "c", "user.created", ⟨"u1", 3, "a@b.c", "F", "L"⟩⟩], none⟩]
      emptySt).2.1 "b1" (by decide),
   (C6_backfill_checkpoint "k" none none none [⟨[], none⟩]
      { emptySt with events := [⟨"e0", "user.created", 1, 1⟩],
                     syncState := some "e0", nextTime := 2 }).2.2 (by decide)⟩

/-! ### Claim C7: honest-feed model of Reconciler runs -/

/-- The suffix of the upstream feed strictly after the event with the given
id (no cursor = the whole feed): the honest behavior of the feed's
`after` pagination parameter. -/
def suffixAfter (u : List WEvent) : Option String → List WEvent
  | none => u
  | some id => (u.dropWhile (fun e => e.id ≠ id)).drop 1

/-- An honest response to one `listEvents` request: the type-filtered suffix
of the upstream feed after the cursor, delivered in a single page. -/
def serve (u : List WEvent) (types : List String) (cur : Option String) : List WEvent :=
  (suffixAfter u cur).filter (fun e => decide (e.event ∈ types))

/-- One Reconciler run: the extra event types passed as `eventTypes` and the
upstream feed snapshot visible at run time. -/
structure RunSpec where
  extra : List String
  up : List WEvent
deriving DecidableEq, Repr

/-- The cursor a Reconciler run starts from. -/
def cpCursor (s : St) : Option String := (getLastCheckpointedEvent s).map Prod.fst

/-- The `_creationTime` of the event the Checkpoint references. -/
def cpCt (s : St) : Option Nat := (getLastCheckpointedEvent s).map Prod.snd

/-- The honest single-page feed responses a Reconciler run receives. -/
def honestPages (r : RunSpec) (s : St) : List Page :=
  [⟨serve r.up (baseEventTypes ++ r.extra) (cpCursor s), none⟩]

/-- One complete `backfillEvents` run against an honest upstream feed. -/
def doBackfillRun (r : RunSpec) (s : St) : St :=
  (backfillEvents "" none (some r.extra) none (honestPages r s) s).1

/-- The upstream feed of the counterexample: an event of extra type `"Y"`
followed by an event of extra type `"X"`. -/
def c7up : List WEvent :=
  [⟨"p", "c1", "Y", ⟨"uy", 1, "y@y.y", "F", "L"⟩⟩,
   ⟨"e", "c0", "X", ⟨"ux", 1, "x@x.x", "F", "L"⟩⟩]

/-- Counterexample to claim C7 as stated: the Checkpoint's referenced
creation time can decrease across a sequence of Reconciler runs. All feed
responses below are honest (`serve` of the same upstream `c7up`). A puller
run subscribed to extra type `"X"` records event `"e"` (creation time 1);
a Reconciler run subscribed to `"Y"` then records `"p"` (creation time 2)
and checkpoints it; a second Reconciler run subscribed to `"X"` walks after
`"p"`, re-observes the already-stored `"e"` — reported missing because the
range query only looks at creation times above the checkpoint's — and moves
the Checkpoint to `"e"`: the referenced creation time drops from 2 to 1. -/
theorem C7_counterexample :
    cpCt (doBackfillRun ⟨["Y"], c7up⟩
        (updateEvents "k" none (some ["X"]) none
          [⟨serve c7up (baseEventTypes ++ ["X"]) (getCursor emptySt), none⟩] emptySt).1)
      = some 2 ∧
    cpCt (doBackfillRun ⟨["X"], c7up⟩
        (doBackfillRun ⟨["Y"], c7up⟩
          (updateEvents "k" none (some ["X"]) none
            [⟨serve c7up (baseEventTypes ++ ["X"]) (getCursor emptySt), none⟩] emptySt).1))
      = some 1 := by
  decide

/-- Pointwise order on optional checkpoint creation times: whenever the
first is present, the second is present and at least as large. -/
def cpLe (a b : Option Nat) : Prop :=
  ∀ x, a = some x → ∃ y, b = some y ∧ x ≤ y

/-- The Event records that processing a list of fresh events appends,
starting at a given creation time. -/
def mkRows : List WEvent → Nat → List EventRow
  | [], _ => []
  | e :: t, n => ⟨e.id, e.event, e.data.updatedAt, n⟩ :: mkRows t (n + 1)

theorem mkRows_append :
    ∀ (es : List WEvent) (x : WEvent) (n : Nat),
      mkRows (es ++ [x]) n
        = mkRows es n ++ [⟨x.id, x.event, x.data.updatedAt, n + es.length⟩] := by
  intro es
  induction es with
  | nil => intro x n; simp [mkRows]
  | cons e t ih =>
    intro x n
    have h1 : n + 1 + t.length = n + (t.length + 1) := by omega
    simp only [List.cons_append, mkRows, List.append_eq, ih, List.length_cons, h1]

theorem mkRows_ct_lt :
    ∀ (es : List WEvent) (n : Nat) (row : EventRow), row ∈ mkRows es n →
      row.creationTime < n + es.length := by
  intro es
  induction es with
  | nil => intro n row h; cases h
  | cons e t ih =>
    intro n row h
    rcases List.mem_cons.mp h with rfl | ht
    · simp only [List.length_cons]
      omega
    · have h2 := ih (n + 1) row ht
      simp only [List.length_cons]
      omega

theorem mkRows_map_id :
    ∀ (es : List WEvent) (n : Nat),
      (mkRows es n).map (fun r => r.eventId) = es.map (fun e => e.id) := by
  intro es
  induction es with
  | nil => intro n; rfl
  | cons e t ih => intro n; simp [mkRows, ih]

theorem getMissingEventIds_all {a : Nat} {s : St}
    (h : ∀ row ∈ s.events, row.creationTime ≤ a) (ids : List String) :
    getMissingEventIds ids (some a) s = ids := by
  have hf : s.events.filter (fun r => r.creationTime > a) = [] :=
    List.filter_eq_nil_iff.mpr (fun r hr => by simp [not_lt.mpr (h r hr)])
  simp [getMissingEventIds, hf]

theorem storeIds_processEvent_of_fresh {s : St} {e : WEvent}
    (h : e.id ∉ storeIds s) (lg hd : Option String) :
    storeIds (processEvent e lg hd s) = storeIds s ++ [e.id] := by
  rw [storeIds, processEvent_events_of_fresh h lg hd, List.map_append]
  rfl

/-- Processing a page of fresh events, all reported missing: the Event Store
grows by exactly the page's records with consecutive creation times. -/
theorem backfillPage_fresh (lg hd : Option String) (missing : List String) :
    ∀ (es : List WEvent) (s : St) (r : BackfillResult),
      (∀ e ∈ es, e.id ∈ missing) →
      (∀ e ∈ es, e.id ∉ storeIds s) →
      ((es.map (fun e => e.id)).Nodup) →
      (backfillPage lg hd missing es (s, r)).1.events = s.events ++ mkRows es s.nextTime ∧
      (backfillPage lg hd missing es (s, r)).1.nextTime = s.nextTime + es.length ∧
      (backfillPage lg hd missing es (s, r)).1.syncState = s.syncState := by
  intro es
  induction es with
  | nil => intro s r _ _ _; exact ⟨by simp [backfillPage, mkRows], rfl, rfl⟩
  | cons e t ih =>
    intro s r hmiss hfresh hnod
    simp only [List.map_cons, List.nodup_cons] at hnod
    have hm : e.id ∈ missing := hmiss e (List.mem_cons_self e t)
    have hf : e.id ∉ storeIds s := hfresh e (List.mem_cons_self e t)
    rw [show backfillPage lg hd missing (e :: t) (s, r)
        = backfillPage lg hd missing t
            (if e.id ∈ missing then
              (processEvent e lg hd s,
               { r with processed := r.processed + 1, lastEventId := some e.id })
             else
              (s, { r with skipped := r.skipped + 1, lastEventId := some e.id }))
      from rfl, if_pos hm]
    have hfresh2 : ∀ x ∈ t, x.id ∉ storeIds (processEvent e lg hd s) := by
      intro x hx
      rw [storeIds_processEvent_of_fresh hf lg hd]
      intro hmem
      rcases List.mem_append.mp hmem with h1 | h1
      · exact hfresh x (List.mem_cons_of_mem e hx) h1
      · simp only [List.mem_singleton] at h1
        exact hnod.1 (h1 ▸ List.mem_map_of_mem (fun e => e.id) hx)
    obtain ⟨h1, h2, h3⟩ := ih (processEvent e lg hd s) _
      (fun x hx => hmiss x (List.mem_cons_of_mem e hx)) hfresh2 hnod.2
    refine ⟨?_, ?_, ?_⟩
    · rw [h1, processEvent_events_of_fresh hf lg hd,
        processEvent_nextTime_of_fresh hf lg hd]
      simp [mkRows]
    · rw [h2, processEvent_nextTime_of_fresh hf lg hd]
      simp only [List.length_cons]
      omega
    · rw [h3, processEvent_syncState]

theorem suffixAfter_split (c : String) :
    ∀ (pre : List WEvent) (ec : WEvent) (suf : List WEvent),
      ec.id = c →
      (((pre ++ ec :: suf).map (fun e => e.id)).Nodup) →
      suffixAfter (pre ++ ec :: suf) (some c) = suf := by
  intro pre
  induction pre with
  | nil =>
    intro ec suf hc hn
    show ((ec :: suf).dropWhile (fun e => e.id ≠ c)).drop 1 = suf
    rw [List.dropWhile_cons]
    simp [hc]
  | cons a pre2 ih =>
    intro ec suf hc hn
    simp only [List.cons_append, List.map_cons, List.nodup_cons] at hn
    have ha : ¬ a.id = c := by
      intro h
      refine hn.1 ?_
      rw [h, ← hc]
      have hm : ec ∈ pre2 ++ ec :: suf := by simp
      exact List.mem_map_of_mem (fun e : WEvent => e.id) hm
    show ((a :: (pre2 ++ ec :: suf)).dropWhile (fun e => e.id ≠ c)).drop 1 = suf
    rw [List.dropWhile_cons, if_pos (by simp [ha])]
    exact ih ec suf hc hn.2

theorem filter_getLast_split {α : Type} (p : α → Bool) (l : List α) :
    ∀ (x : α), (l.filter p).getLast? = some x →
      ∃ a b, l = a ++ x :: b ∧ b.filter p = [] ∧ l.filter p = a.filter p ++ [x] := by
  induction l using List.reverseRecOn with
  | nil => intro x h; simp at h
  | append_singleton t y ih =>
    intro x h
    by_cases hp : p y
    · rw [List.filter_append, List.filter_cons, if_pos hp] at h
      simp only [List.filter_nil] at h
      rw [List.getLast?_concat] at h
      obtain rfl : y = x := by injection h
      exact ⟨t, [], rfl, by simp, by rw [List.filter_append, List.filter_cons, if_pos hp]; rfl⟩
    · rw [List.filter_append, List.filter_cons, if_neg hp] at h
      simp only [List.filter_nil, List.append_nil] at h
      obtain ⟨a, b, rfl, hb, hf⟩ := ih x h
      refine ⟨a, b ++ [y], by simp, ?_, ?_⟩
      · rw [List.filter_append, hb, List.filter_cons, if_neg hp]
        rfl
      · rw [List.filter_append, hf, List.filter_cons, if_neg hp]
        simp

/-- A complete `backfillEvents` run over one nonempty honest page of fresh
events: every event is inserted with consecutive creation times and the
Checkpoint is advanced to the page's last event. -/
theorem backfillEvents_fresh_single (apiKey : String) (hd : Option String)
    (et : Option (List String)) (lg : Option String)
    (a2 : List WEvent) (l : WEvent) (s : St)
    (hmissing : getMissingEventIds ((a2 ++ [l]).map (fun e => e.id))
        (some (((getLastCheckpointedEvent s).map Prod.snd).getD 0)) s
      = (a2 ++ [l]).map (fun e => e.id))
    (hfresh : ∀ e ∈ a2 ++ [l], e.id ∉ storeIds s)
    (hnod : ((a2 ++ [l]).map (fun e => e.id)).Nodup) :
    (backfillEvents apiKey hd et lg [⟨a2 ++ [l], none⟩] s).1.events
      = s.events ++ mkRows (a2 ++ [l]) s.nextTime ∧
    (backfillEvents apiKey hd et lg [⟨a2 ++ [l], none⟩] s).1.nextTime
      = s.nextTime + (a2.length + 1) ∧
    (backfillEvents apiKey hd et lg [⟨a2 ++ [l], none⟩] s).1.syncState = some l.id := by
  have hemp : (a2 ++ [l]).isEmpty = false := by simp
  have hloop : backfillLoop lg hd (((getLastCheckpointedEvent s).map Prod.snd).getD 0)
      [⟨a2 ++ [l], none⟩] s ⟨0, 0, none⟩
    = backfillPage lg hd ((a2 ++ [l]).map (fun e => e.id)) (a2 ++ [l])
        (s, ⟨0, 0, none⟩) := by
    simp only [backfillLoop, hemp, Bool.false_eq_true, if_false, hmissing]
  have hlast : (backfillPage lg hd ((a2 ++ [l]).map (fun e => e.id)) (a2 ++ [l])
      (s, ⟨0, 0, none⟩)).2.lastEventId = some l.id := by
    rw [backfillPage_lastEventId]
    simp
  obtain ⟨h1, h2, h3⟩ := backfillPage_fresh lg hd ((a2 ++ [l]).map (fun e => e.id))
    (a2 ++ [l]) s ⟨0, 0, none⟩
    (fun e he => List.mem_map_of_mem (fun e => e.id) he) hfresh hnod
  have hbe : backfillEvents apiKey hd et lg [⟨a2 ++ [l], none⟩] s
      = (updateLastCheckpointedEventId l.id
          (backfillPage lg hd ((a2 ++ [l]).map (fun e => e.id)) (a2 ++ [l])
            (s, ⟨0, 0, none⟩)).1,
         (backfillPage lg hd ((a2 ++ [l]).map (fun e => e.id)) (a2 ++ [l])
           (s, ⟨0, 0, none⟩)).2) := by
    simp only [backfillEvents, hloop, hlast]
  rw [hbe]
  refine ⟨?_, ?_, rfl⟩
  · show (backfillPage lg hd ((a2 ++ [l]).map (fun e => e.id)) (a2 ++ [l])
        (s, ⟨0, 0, none⟩)).1.events = _
    rw [h1]
  · show (backfillPage lg hd ((a2 ++ [l]).map (fun e => e.id)) (a2 ++ [l])
        (s, ⟨0, 0, none⟩)).1.nextTime = _
    rw [h2]
    simp

theorem backfillEvents_empty_page (apiKey : String) (hd : Option String)
    (et : Option (List String)) (lg : Option String) (s : St) :
    backfillEvents apiKey hd et lg [⟨[], none⟩] s = (s, ⟨0, 0, none⟩) := by
  simp only [backfillEvents]
  rw [backfillLoop_of_no_walk _ _ _ _ _ _ (by rfl)]

theorem find?_eventId_eq {l : List EventRow} {row : EventRow} {i : String}
    (hn : (l.map (fun x => x.eventId)).Nodup) (hm : row ∈ l)
    (hi : row.eventId = i) :
    l.find? (fun x => x.eventId = i) = some row := by
  have h0 := find?_key_eq_some (fun x : EventRow => x.eventId) l row hn hm
  simp only at h0
  simp only [hi] at h0
  exact h0

/-- The reachability invariant tying a state to the honest upstream feed `u`:
creation times are below the allocator, Event Store ids are duplicate-free,
and — when a Checkpoint exists — the checkpointed event occurs in `u`, every
stored event occurs in `u` no later than it, and its record carries the
maximal stored creation time. Без checkpoint the store is empty (Reconciler-
only histories from the empty store). -/
def ReconInv (u : List WEvent) (s : St) : Prop :=
  (∀ row ∈ s.events, row.creationTime < s.nextTime) ∧
  (storeIds s).Nodup ∧
  (match s.syncState with
   | none => s.events = []
   | some c =>
      ∃ pre ec suf, u = pre ++ ec :: suf ∧ ec.id = c ∧
        (∀ row ∈ s.events, row.eventId ∈ (pre ++ [ec]).map (fun e => e.id)) ∧
        ∃ rc ∈ s.events, rc.eventId = c ∧
          ∀ row ∈ s.events, row.creationTime ≤ rc.creationTime)

theorem ReconInv_empty (u : List WEvent) : ReconInv u emptySt :=
  ⟨fun row h => absurd h (by simp [emptySt]), by simp [storeIds, emptySt], rfl⟩

theorem ReconInv_mono {u ext : List WEvent} {s : St} (h : ReconInv u s) :
    ReconInv (u ++ ext) s := by
  obtain ⟨h1, h2, h3⟩ := h
  refine ⟨h1, h2, ?_⟩
  cases hsync : s.syncState with
  | none =>
    rw [hsync] at h3
    exact h3
  | some c =>
    rw [hsync] at h3
    obtain ⟨pre, ec, suf, hu, hec, hmemP, rc, hrcmem, hrcid, hrcmax⟩ := h3
    exact ⟨pre, ec, suf ++ ext, by rw [hu]; simp, hec, hmemP, rc, hrcmem, hrcid, hrcmax⟩

/-- Core of the Reconciler step: a run whose honest response is a nonempty
page of events lying strictly beyond the store's covered region
re-establishes the invariant and checkpoints a freshly inserted event. -/
theorem run_core (r : RunSpec) (s : St) (P Q a2 : List WEvent) (l : WEvent)
    (hu : r.up = P ++ Q)
    (hnodU : (r.up.map (fun e => e.id)).Nodup)
    (hct : ∀ row ∈ s.events, row.creationTime < s.nextTime)
    (hnodS : (storeIds s).Nodup)
    (hmemP : ∀ row ∈ s.events, row.eventId ∈ P.map (fun e => e.id))
    (hserve : serve r.up (baseEventTypes ++ r.extra) (cpCursor s)
        = Q.filter (fun e => decide (e.event ∈ baseEventTypes ++ r.extra)))
    (hmissingAll : ∀ ids, getMissingEventIds ids
        (some (((getLastCheckpointedEvent s).map Prod.snd).getD 0)) s = ids)
    (hsplitQ : Q.filter (fun e => decide (e.event ∈ baseEventTypes ++ r.extra))
        = a2 ++ [l]) :
    ReconInv r.up (doBackfillRun r s) ∧
    cpCt (doBackfillRun r s) = some (s.nextTime + a2.length) := by
  have hnodPQ : ((P.map (fun e => e.id)) ++ (Q.map (fun e => e.id))).Nodup := by
    rw [← List.map_append, ← hu]
    exact hnodU
  have hdisj : ∀ x, x ∈ P.map (fun e => e.id) → x ∈ Q.map (fun e => e.id) → False :=
    fun x h1 h2 => (List.nodup_append.mp hnodPQ).2.2 h1 h2
  have hsubQ : ∀ e ∈ a2 ++ [l], e ∈ Q := by
    intro e he
    rw [← hsplitQ] at he
    exact List.mem_of_mem_filter he
  have hfresh : ∀ e ∈ a2 ++ [l], e.id ∉ storeIds s := by
    intro e he hmem
    rcases List.mem_map.mp hmem with ⟨row, hrow, hrowid⟩
    exact hdisj e.id (hrowid ▸ hmemP row hrow)
      (List.mem_map_of_mem (fun e => e.id) (hsubQ e he))
  have hnodserved : ((a2 ++ [l]).map (fun e => e.id)).Nodup := by
    rw [← hsplitQ]
    exact ((List.filter_sublist Q).map (fun e => e.id)).nodup
      (List.nodup_append.mp hnodPQ).2.1
  have hpg : honestPages r s = [⟨a2 ++ [l], none⟩] := by
    rw [honestPages, hserve, hsplitQ]
  have hdo : doBackfillRun r s
      = (backfillEvents "" none (some r.extra) none [⟨a2 ++ [l], none⟩] s).1 := by
    rw [doBackfillRun, hpg]
  obtain ⟨hev, hnt, hsync⟩ := backfillEvents_fresh_single "" none (some r.extra) none
    a2 l s (hmissingAll _) hfresh hnodserved
  rw [← hdo] at hev hnt hsync
  obtain ⟨A, B, hQ, hBf, hfQ⟩ := filter_getLast_split
    (fun e => decide (e.event ∈ baseEventTypes ++ r.extra)) Q l
    (by rw [hsplitQ]; exact List.getLast?_concat a2)
  have hEq : a2 ++ [l]
      = A.filter (fun e => decide (e.event ∈ baseEventTypes ++ r.extra)) ++ [l] :=
    hsplitQ.symm.trans hfQ
  have hu2 : r.up = (P ++ A) ++ l :: B := by
    rw [hu, hQ]
    simp
  have hsid : storeIds (doBackfillRun r s)
      = storeIds s ++ (a2 ++ [l]).map (fun e => e.id) := by
    rw [storeIds, hev, List.map_append, mkRows_map_id]
    rfl
  have hnod2 : (storeIds (doBackfillRun r s)).Nodup := by
    rw [hsid, List.nodup_append]
    exact ⟨hnodS, hnodserved, fun x hx1 hx2 => by
      rcases List.mem_map.mp hx2 with ⟨e, he, heid⟩
      exact hfresh e he (heid ▸ hx1)⟩
  have hrc2mem : (⟨l.id, l.event, l.data.updatedAt, s.nextTime + a2.length⟩ : EventRow)
      ∈ (doBackfillRun r s).events := by
    rw [hev, mkRows_append]
    simp
  have hfind2 : (doBackfillRun r s).events.find? (fun x => x.eventId = l.id)
      = some ⟨l.id, l.event, l.data.updatedAt, s.nextTime + a2.length⟩ :=
    find?_eventId_eq hnod2 hrc2mem rfl
  have hgle2 : getLastCheckpointedEvent (doBackfillRun r s)
      = some (l.id, s.nextTime + a2.length) := by
    unfold getLastCheckpointedEvent
    rw [hsync]
    show ((doBackfillRun r s).events.find? (fun x => x.eventId = l.id)).map
        (fun r => (r.eventId, r.creationTime)) = _
    rw [hfind2]
    rfl
  constructor
  · refine ⟨?_, hnod2, ?_⟩
    · intro row hrow
      rw [hev] at hrow
      rw [hnt]
      rcases List.mem_append.mp hrow with h1 | h1
      · have h2 := hct row h1
        omega
      · have h2 := mkRows_ct_lt (a2 ++ [l]) s.nextTime row h1
        simp only [List.length_append, List.length_cons, List.length_nil] at h2
        omega
    · rw [hsync]
      refine ⟨P ++ A, l, B, hu2, rfl, ?_,
        ⟨l.id, l.event, l.data.updatedAt, s.nextTime + a2.length⟩, hrc2mem, rfl, ?_⟩
      · intro row hrow
        rw [hev] at hrow
        simp only [List.map_append, List.mem_append]
        rcases List.mem_append.mp hrow with h1 | h1
        · exact Or.inl (Or.inl (hmemP row h1))
        · have h2 : row.eventId ∈ (a2 ++ [l]).map (fun e => e.id) := by
            have h3 := List.mem_map_of_mem (fun x : EventRow => x.eventId) h1
            rw [mkRows_map_id] at h3
            exact h3
          rw [hEq] at h2
          simp only [List.map_append, List.mem_append] at h2
          rcases h2 with h3 | h3
          · rcases List.mem_map.mp h3 with ⟨e, he, heid⟩
            exact Or.inl (Or.inr (heid ▸
              List.mem_map_of_mem (fun e => e.id) (List.mem_of_mem_filter he)))
          · exact Or.inr h3
      · intro row hrow
        rw [hev] at hrow
        show row.creationTime ≤ s.nextTime + a2.length
        rcases List.mem_append.mp hrow with h1 | h1
        · have h2 := hct row h1
          omega
        · have h2 := mkRows_ct_lt (a2 ++ [l]) s.nextTime row h1
          simp only [List.length_append, List.length_cons, List.length_nil] at h2
          omega
  · rw [cpCt, hgle2]
    rfl

/-- One honest Reconciler run preserves the invariant and never lowers the
Checkpoint's referenced creation time. -/
theorem doBackfillRun_step (r : RunSpec) (s : St)
    (hnodU : (r.up.map (fun e => e.id)).Nodup)
    (hinv : ReconInv r.up s) :
    ReconInv r.up (doBackfillRun r s) ∧ cpLe (cpCt s) (cpCt (doBackfillRun r s)) := by
  obtain ⟨hct, hnodS, hcp⟩ := hinv
  cases hsync : s.syncState with
  | none =>
    rw [hsync] at hcp
    have hgle : getLastCheckpointedEvent s = none := by
      unfold getLastCheckpointedEvent
      rw [hsync]
    have hcur : cpCursor s = none := by rw [cpCursor, hgle]; rfl
    have hcpct : cpCt s = none := by rw [cpCt, hgle]; rfl
    have hserve : serve r.up (baseEventTypes ++ r.extra) (cpCursor s)
        = r.up.filter (fun e => decide (e.event ∈ baseEventTypes ++ r.extra)) := by
      rw [hcur]
      rfl
    have hmissingAll : ∀ ids, getMissingEventIds ids
        (some (((getLastCheckpointedEvent s).map Prod.snd).getD 0)) s = ids := by
      intro ids
      rw [hgle]
      exact getMissingEventIds_all
        (fun row h => absurd h (by rw [hcp]; exact List.not_mem_nil row)) ids
    cases hserve2 : r.up.filter (fun e => decide (e.event ∈ baseEventTypes ++ r.extra)) with
    | nil =>
      have hrun : doBackfillRun r s = s := by
        rw [doBackfillRun, honestPages, hserve, hserve2, backfillEvents_empty_page]
      rw [hrun]
      refine ⟨⟨hct, hnodS, ?_⟩, ?_⟩
      · rw [hsync]
        exact hcp
      · intro x hx
        rw [hcpct] at hx
        cases hx
    | cons e0 t0 =>
      obtain ⟨a2, l, hsplit2⟩ : ∃ a2 l, e0 :: t0 = a2 ++ [l] := by
        refine ⟨(e0 :: t0).dropLast, (e0 :: t0).getLast (by simp), ?_⟩
        exact (List.dropLast_append_getLast (by simp)).symm
      obtain ⟨hIn, hcpv⟩ := run_core r s [] r.up a2 l (by simp) hnodU hct hnodS
        (fun row h => absurd h (by rw [hcp]; exact List.not_mem_nil row))
        hserve hmissingAll (hserve2.trans hsplit2)
      refine ⟨hIn, ?_⟩
      intro x hx
      rw [hcpct] at hx
      cases hx
  | some c =>
    rw [hsync] at hcp
    obtain ⟨pre, ec, suf, hu, hec, hmemP, rc, hrcmem, hrcid, hrcmax⟩ := hcp
    have hfindrc : s.events.find? (fun x => x.eventId = c) = some rc :=
      find?_eventId_eq hnodS hrcmem hrcid
    have hgle : getLastCheckpointedEvent s = some (c, rc.creationTime) := by
      unfold getLastCheckpointedEvent
      rw [hsync]
      show (s.events.find? (fun x => x.eventId = c)).map
          (fun r => (r.eventId, r.creationTime)) = _
      rw [hfindrc]
      simp [hrcid]
    have hcur : cpCursor s = some c := by rw [cpCursor, hgle]; rfl
    have hcpct : cpCt s = some rc.creationTime := by rw [cpCt, hgle]; rfl
    have hnodU2 : (((pre ++ ec :: suf).map (fun e => e.id))).Nodup := hu ▸ hnodU
    have hsa : suffixAfter r.up (some c) = suf := by
      rw [hu]
      exact suffixAfter_split c pre ec suf hec hnodU2
    have hserve : serve r.up (baseEventTypes ++ r.extra) (cpCursor s)
        = suf.filter (fun e => decide (e.event ∈ baseEventTypes ++ r.extra)) := by
      unfold serve
      rw [hcur, hsa]
    have hmissingAll : ∀ ids, getMissingEventIds ids
        (some (((getLastCheckpointedEvent s).map Prod.snd).getD 0)) s = ids := by
      intro ids
      rw [hgle]
      exact getMissingEventIds_all hrcmax ids
    have hP : r.up = (pre ++ [ec]) ++ suf := by
      rw [hu]
      simp
    cases hserve2 : suf.filter (fun e => decide (e.event ∈ baseEventTypes ++ r.extra)) with
    | nil =>
      have hrun : doBackfillRun r s = s := by
        rw [doBackfillRun, honestPages, hserve, hserve2, backfillEvents_empty_page]
      rw [hrun]
      refine ⟨⟨hct, hnodS, ?_⟩, ?_⟩
      · rw [hsync]
        exact ⟨pre, ec, suf, hu, hec, hmemP, rc, hrcmem, hrcid, hrcmax⟩
      · intro x hx
        exact ⟨x, hx, le_refl x⟩
    | cons e0 t0 =>
      obtain ⟨a2, l, hsplit2⟩ : ∃ a2 l, e0 :: t0 = a2 ++ [l] := by
        refine ⟨(e0 :: t0).dropLast, (e0 :: t0).getLast (by simp), ?_⟩
        exact (List.dropLast_append_getLast (by simp)).symm
      obtain ⟨hIn, hcpv⟩ := run_core r s (pre ++ [ec]) suf a2 l hP hnodU hct hnodS
        hmemP hserve hmissingAll (hserve2.trans hsplit2)
      refine ⟨hIn, ?_⟩
      intro x hx
      rw [hcpct] at hx
      have hx2 : rc.creationTime = x := by injection hx
      refine ⟨s.nextTime + a2.length, hcpv, ?_⟩
      have h3 := hct rc hrcmem
      omega

theorem c7_aux :
    ∀ (runs : List RunSpec) (s : St) (u : List WEvent),
      ReconInv u s →
      (∀ r ∈ runs, (r.up.map (fun e => e.id)).Nodup) →
      List.Chain' (fun r1 r2 => ∃ ext, r2.up = r1.up ++ ext) runs →
      (∀ r0, runs.head? = some r0 → ∃ ext, r0.up = u ++ ext) →
      List.Chain' cpLe
        ((List.scanl (fun s r => doBackfillRun r s) s runs).map cpCt) := by
  intro runs
  induction runs with
  | nil =>
    intro s u _ _ _ _
    simp
  | cons r rest ih =>
    intro s u hinv hnod hchain hhead
    obtain ⟨ext, hext⟩ := hhead r rfl
    have hnodr : (r.up.map (fun e => e.id)).Nodup := hnod r (by simp)
    have hinv2 : ReconInv r.up s := by
      rw [hext]
      exact ReconInv_mono hinv
    obtain ⟨hinv3, hle⟩ := doBackfillRun_step r s hnodr hinv2
    rw [List.scanl_cons, List.singleton_append, List.map_cons, List.chain'_cons']
    constructor
    · intro b hb
      have hhd : ((List.scanl (fun s r => doBackfillRun r s) (doBackfillRun r s)
          rest).map cpCt).head? = some (cpCt (doBackfillRun r s)) := by
        cases rest <;> simp [List.scanl]
      rw [Option.mem_def, hhd] at hb
      have hb2 : cpCt (doBackfillRun r s) = b := by
        injection hb
      rw [← hb2]
      exact hle
    · refine ih (doBackfillRun r s) r.up hinv3
        (fun x hx => hnod x (List.mem_cons_of_mem r hx))
        (List.chain'_cons'.mp hchain).2 ?_
      intro r0 h0
      exact (List.chain'_cons'.mp hchain).1 r0 h0

/-- Claim C7 (amended): for Reconciler-only histories from the empty store —
any sequence of complete `backfillEvents` runs against honest, append-only
upstream feed snapshots with globally unique event ids, each run free to use
its own extra event types — the creation time of the event referenced by the
Checkpoint never decreases along the sequence. The unrestricted claim is
false: interleaving a Live Sync Puller run (or starting from a store the
puller already populated) lets the Checkpoint move to an event with a
smaller creation time (see the counterexample). -/
theorem C7_amended_checkpoint_monotone (runs : List RunSpec)
    (hnod : ∀ r ∈ runs, (r.up.map (fun e => e.id)).Nodup)
    (hchain : List.Chain' (fun r1 r2 => ∃ ext, r2.up = r1.up ++ ext) runs) :
    List.Chain' cpLe
      ((List.scanl (fun s r => doBackfillRun r s) emptySt runs).map cpCt) := by
  cases runs with
  | nil => simp
  | cons r rest =>
    refine c7_aux (r :: rest) emptySt r.up (ReconInv_empty _) hnod hchain ?_
    intro r0 h0
    simp only [List.head?_cons] at h0
    have h1 : r = r0 := by injection h0
    exact ⟨[], by rw [← h1]; simp⟩

/-- Witness for the amended C7: the two honest Reconciler runs of the
counterexample scenario, but started from the empty store, keep the
Checkpoint's referenced creation time non-decreasing. -/
theorem C7_amended_witness :
    List.Chain' cpLe
      ((List.scanl (fun s r => doBackfillRun r s) emptySt
        [⟨["Y"], c7up⟩, ⟨["X"], c7up⟩]).map cpCt) :=
  C7_amended_checkpoint_monotone [⟨["Y"], c7up⟩, ⟨["X"], c7up⟩]
    (by decide)
    (List.chain'_cons.mpr ⟨⟨[], by simp⟩, List.chain'_singleton _⟩)
